import Mathlib

/-!
# Pack sizer: registry of pack sizes and the pack optimizer

A shallow embedding of `backend/internal/services/pack_service.go`.

* Go `int` is the 64-bit signed integer: values are modelled as `Int`, and the
  result of every `+`, `-` and `++` of `CalculatePacks` passes through `wrapInt`,
  the two's-complement wrap.
* `make([]solution, n)` panics when `n` is negative or beyond what the Go
  runtime allocates (`maxTableLen`); running out of physical memory below that
  limit is outside the model.
* A Go `map[int]int` is modelled as an association list with one entry per key
  (`PackMap`); the source only inserts, increments, copies and sums the counts.
* A run-time panic (index out of range, refused `make` length) is modelled
  as `none`.
* The mutex of `PackSizesManager` is not modelled: every method body runs under
  the lock, so each method is one atomic state transformer.
-/

namespace PackSizer

/-! ## The registry `PackSizesManager` -/

/-- The effect of Go's `sort.Ints`: the ascending rearrangement of the slice. -/
def sortInts (xs : List Int) : List Int :=
  xs.insertionSort (· ≤ ·)

/-- The state of a `PackSizesManager`: its `sizes` slice. -/
structure PackSizesManager where
  sizes : List Int
deriving DecidableEq, Repr

/-- `NewPackSizesManager`: the default sizes. -/
def NewPackSizesManager : PackSizesManager :=
  ⟨[250, 500, 1000, 2000, 5000]⟩

/-- `GetSizes`: a copy of the current sizes. -/
def GetSizes (p : PackSizesManager) : List Int :=
  [] ++ p.sizes

/-- `AddSize`: returns early when the size is found, otherwise appends and sorts. -/
def AddSize (p : PackSizesManager) (size : Int) : PackSizesManager :=
  if p.sizes.any (fun s => s == size) then p
  else ⟨sortInts (p.sizes ++ [size])⟩

/-- `RemoveSize`: keeps the elements different from `size`, in order. -/
def RemoveSize (p : PackSizesManager) (size : Int) : PackSizesManager :=
  ⟨p.sizes.filter (fun s => s != size)⟩

/-- The two errors `UpdateSize` can return:
`fmt.Errorf("old size %d does not exist", oldSize)` and
`fmt.Errorf("new size %d already exists", newSize)`. -/
inductive UpdateError where
  | oldSizeDoesNotExist (oldSize : Int)
  | newSizeAlreadyExists (newSize : Int)
deriving DecidableEq, Repr

/-- `UpdateSize`: the new state together with the returned error (`none` is Go's `nil`). -/
def UpdateSize (p : PackSizesManager) (oldSize newSize : Int) :
    PackSizesManager × Option UpdateError :=
  let oldSizeExists := p.sizes.any (fun s => s == oldSize)
  if !oldSizeExists then (p, some (UpdateError.oldSizeDoesNotExist oldSize))
  else if p.sizes.any (fun s => s == newSize) then
    (p, some (UpdateError.newSizeAlreadyExists newSize))
  else
    let newSizes := p.sizes.filter (fun s => s != oldSize)
    let newSizes := newSizes ++ [newSize]
    (⟨sortInts newSizes⟩, none)

/-- One mutating call on the registry. -/
inductive RegistryCall where
  | addSize (size : Int)
  | removeSize (size : Int)
  | updateSize (oldSize newSize : Int)
deriving DecidableEq, Repr

/-- The state after one call (the error of `UpdateSize`, if any, is dropped). -/
def applyCall (p : PackSizesManager) : RegistryCall → PackSizesManager
  | RegistryCall.addSize size => AddSize p size
  | RegistryCall.removeSize size => RemoveSize p size
  | RegistryCall.updateSize oldSize newSize => (UpdateSize p oldSize newSize).1

/-- The state after a finite sequence of calls, applied left to right. -/
def applyCalls (p : PackSizesManager) (calls : List RegistryCall) : PackSizesManager :=
  calls.foldl applyCall p

/-! ## The optimizer `CalculatePacks` -/

/-- A Go `map[int]int` from pack size to count. -/
abbrev PackMap := List (Int × Int)

/-- Reading `m[k]`: the stored count, or `0` when the key is absent. -/
def mapGet : PackMap → Int → Int
  | [], _ => 0
  | (k', v) :: rest, k => if k' = k then v else mapGet rest k

/-- The assignment `m[k] = v`. -/
def mapSet : PackMap → Int → Int → PackMap
  | [], k, v => [(k, v)]
  | (k', v') :: rest, k, v => if k' = k then (k, v) :: rest else (k', v') :: mapSet rest k v

/-- The sum of the counts stored in a map, over the integers.  The loop
`for _, count := range m { total += count }` computes `wrapInt` of it, since
wrapping after every addition is wrapping the sum. -/
def sumCounts (m : PackMap) : Int :=
  (m.map Prod.snd).sum

/-- The sum of `size * count` over the entries of a map. -/
def sumItems (m : PackMap) : Int :=
  (m.map (fun e => e.1 * e.2)).sum

/-- `models.PackCalculation`. -/
structure PackCalculation where
  OrderQuantity : Int
  Packs : PackMap
  TotalItems : Int
deriving DecidableEq, Repr

/-- The local type `solution` of `CalculatePacks`. -/
structure solution where
  totalItems : Int
  packs : PackMap
deriving DecidableEq, Repr

/-- The slice read `dp[i]`; `none` is the out-of-range panic. -/
def index (dp : List solution) (i : Int) : Option solution :=
  if i < 0 then none else dp[i.toNat]?

/-- The values `lo, lo+1, ..., hi` of a loop `for q := lo; q <= hi; q++`. -/
def quantities (lo hi : Int) : List Int :=
  (List.range (hi + 1 - lo).toNat).map (fun (k : Nat) => lo + (k : Int))

/-- Go's 64-bit `int`: the two's-complement value of an integer result
(`9223372036854775808` is `2^63`, `18446744073709551616` is `2^64`). -/
def wrapInt (x : Int) : Int :=
  (x + 9223372036854775808) % 18446744073709551616 - 9223372036854775808

/-- The longest `[]solution` that `make` allocates, `2^44`: the Go runtime panics
("makeslice: len out of range") when the length is negative or when the
elements, 16 bytes each (an `int` and a map reference), exceed its allocation
limit of `2^48` bytes on 64-bit platforms. -/
def maxTableLen : Int := 17592186044416

/-- The body of the inner loop `for _, packSize := range packSizes`. -/
def tryPack (quantity : Int) (dp : List solution) (packSize : Int) : Option (List solution) :=
  if packSize > quantity then some dp
  else
    match index dp (wrapInt (quantity - packSize)), index dp quantity with
    | some prevSolution, some current =>
      let newTotalItems := wrapInt (prevSolution.totalItems + packSize)
      let prevTotalPacks := wrapInt (sumCounts prevSolution.packs)
      let currentTotalPacks := wrapInt (sumCounts current.packs)
      let isBetter := newTotalItems < current.totalItems ∨
        (newTotalItems = current.totalItems ∧ wrapInt (prevTotalPacks + 1) < currentTotalPacks)
      if isBetter then
        let newPacks := prevSolution.packs
        let newPacks := mapSet newPacks packSize (wrapInt (mapGet newPacks packSize + 1))
        some (dp.set quantity.toNat ⟨newTotalItems, newPacks⟩)
      else some dp
    | _, _ => none

/-- The body of the outer loop: all pack sizes are tried for one quantity. -/
def fillQuantity (packSizes : List Int) (dp : List solution) (quantity : Int) :
    Option (List solution) :=
  packSizes.foldlM (tryPack quantity) dp

/-- The loop `for quantity := 1; quantity <= maxPossibleOrder; quantity++`; the
counter cannot wrap, because a table with `maxPossibleOrder + 1` entries exists. -/
def fillTable (packSizes : List Int) (maxPossibleOrder : Int) (dp : List solution) :
    Option (List solution) :=
  (quantities 1 maxPossibleOrder).foldlM (fillQuantity packSizes) dp

/-- The body of the final scan; the state is `(bestTotalItems, bestSolution)`. -/
def scanStep (dp : List solution) (best : Int × solution) (quantity : Int) :
    Option (Int × solution) :=
  match index dp quantity with
  | some s => if s.totalItems < best.1 then some (s.totalItems, s) else some best
  | none => none

/-- The final scan over `orderQuantity .. maxPossibleOrder`. -/
def findBest (dp : List solution) (orderQuantity maxPossibleOrder : Int) :
    Option (Int × solution) :=
  (quantities orderQuantity maxPossibleOrder).foldlM (scanStep dp)
    (wrapInt (maxPossibleOrder + 1), ⟨0, []⟩)

/-- The table as allocated by `make([]solution, maxPossibleOrder+1)` and
initialised with the sentinel, before the base case is written; `none` when
`make` refuses the length. -/
def initTable (maxPossibleOrder : Int) : Option (List solution) :=
  let length := wrapInt (maxPossibleOrder + 1)
  if length < 0 ∨ maxTableLen < length then none
  else some (List.replicate length.toNat ⟨wrapInt (maxPossibleOrder + 1), []⟩)

/-- The statement `dp[0].totalItems = 0`. -/
def setBase (dp : List solution) : Option (List solution) :=
  match dp with
  | [] => none
  | s :: rest => some ({ s with totalItems := 0 } :: rest)

/-- `CalculatePacks`; `none` stands for a run-time panic. -/
def CalculatePacks (orderQuantity : Int) (packSizes : List Int) : Option PackCalculation :=
  let packSizes := sortInts packSizes
  let result : PackCalculation := ⟨orderQuantity, [], 0⟩
  if orderQuantity = 0 then some result
  else
    match packSizes.head? with
    | none => none
    | some smallestPack =>
      if orderQuantity < smallestPack then
        some { result with Packs := mapSet result.Packs smallestPack 1, TotalItems := smallestPack }
      else
        match packSizes.getLast? with
        | none => none
        | some largestPack =>
          let maxPossibleOrder := wrapInt (orderQuantity + largestPack)
          match (initTable maxPossibleOrder).bind setBase with
          | none => none
          | some dp =>
            match (fillTable packSizes maxPossibleOrder dp).bind
                (fun dp => findBest dp orderQuantity maxPossibleOrder) with
            | none => none
            | some best =>
              some { result with Packs := best.2.packs, TotalItems := best.2.totalItems }

/-- The caller's slice after a call of `CalculatePacks`, paired with the returned
value.  The first statement, `sort.Ints(packSizes)`, sorts the backing array the
slice shares with the caller; no later statement writes to it. -/
def CalculatePacksEffect (orderQuantity : Int) (packSizes : List Int) :
    List Int × Option PackCalculation :=
  (sortInts packSizes, CalculatePacks orderQuantity packSizes)

/-! ## The HTTP handlers `PackHandler`

Parsing (`c.BindJSON`, `fmt.Sscanf`, `strconv.Atoi`) is not modelled: a handler
receives the outcome of parsing, `none` when it failed. -/

/-- The text of an `UpdateSize` error, as `err.Error()` returns it. -/
def UpdateError.Error : UpdateError → String
  | UpdateError.oldSizeDoesNotExist oldSize =>
    "old size " ++ toString oldSize ++ " does not exist"
  | UpdateError.newSizeAlreadyExists newSize =>
    "new size " ++ toString newSize ++ " already exists"

/-- What a handler answers: one `c.JSON(status, ...)` call, or a run-time panic
inside the handler. -/
inductive Response where
  | sizes (status : Nat) (sizes : List Int)
  | error (status : Nat) (message : String)
  | calculation (status : Nat) (result : PackCalculation)
  | panicked
deriving DecidableEq, Repr

/-- The HTTP status written by the handler, if it wrote one. -/
def Response.status : Response → Option Nat
  | Response.sizes status _ => some status
  | Response.error status _ => some status
  | Response.calculation status _ => some status
  | Response.panicked => none

/-- `PackHandler.GetPackSizes`. -/
def PackHandler.GetPackSizes (p : PackSizesManager) : PackSizesManager × Response :=
  (p, Response.sizes 200 (GetSizes p))

/-- `PackHandler.AddPackSize`; `body` is the bound field `size`. -/
def PackHandler.AddPackSize (p : PackSizesManager) (body : Option Int) :
    PackSizesManager × Response :=
  match body with
  | none => (p, Response.error 400 "Invalid request")
  | some size =>
    if size ≤ 0 then (p, Response.error 400 "Pack size must be a positive integer")
    else
      let p := AddSize p size
      (p, Response.sizes 200 (GetSizes p))

/-- `PackHandler.RemovePackSize`; `param` is the scanned path parameter `size`. -/
def PackHandler.RemovePackSize (p : PackSizesManager) (param : Option Int) :
    PackSizesManager × Response :=
  match param with
  | none => (p, Response.error 400 "Invalid pack size")
  | some sizeInt =>
    let p := RemoveSize p sizeInt
    (p, Response.sizes 200 (GetSizes p))

/-- `PackHandler.UpdatePackSize`; `body` is the bound pair `(oldSize, newSize)`. -/
def PackHandler.UpdatePackSize (p : PackSizesManager) (body : Option (Int × Int)) :
    PackSizesManager × Response :=
  match body with
  | none => (p, Response.error 400 "Invalid request")
  | some (oldSize, newSize) =>
    if newSize ≤ 0 then
      (p, Response.error 400 "New pack size must be a positive integer")
    else
      match UpdateSize p oldSize newSize with
      | (p, some err) => (p, Response.error 400 err.Error)
      | (p, none) => (p, Response.sizes 200 (GetSizes p))

/-- `PackHandler.CalculatePacks`; `query` is the converted query parameter
`quantity`. -/
def PackHandler.CalculatePacks (p : PackSizesManager) (query : Option Int) :
    PackSizesManager × Response :=
  match query with
  | none => (p, Response.error 400 "Invalid quantity parameter")
  | some orderQuantity =>
    if orderQuantity ≤ 0 then
      (p, Response.error 400 "Order quantity must be a positive integer")
    else
      let packSizes := GetSizes p
      match PackSizer.CalculatePacks orderQuantity packSizes with
      | some result => (p, Response.calculation 200 result)
      | none => (p, Response.panicked)

/-- One request to a route of `main`, with its parsed input. -/
inductive HandlerRequest where
  | getPackSizes
  | addPackSize (body : Option Int)
  | removePackSize (param : Option Int)
  | updatePackSize (body : Option (Int × Int))
  | calculatePacks (query : Option Int)
deriving DecidableEq, Repr

/-- The handler `main` routes the request to. -/
def serve (p : PackSizesManager) : HandlerRequest → PackSizesManager × Response
  | HandlerRequest.getPackSizes => PackHandler.GetPackSizes p
  | HandlerRequest.addPackSize body => PackHandler.AddPackSize p body
  | HandlerRequest.removePackSize param => PackHandler.RemovePackSize p param
  | HandlerRequest.updatePackSize body => PackHandler.UpdatePackSize p body
  | HandlerRequest.calculatePacks query => PackHandler.CalculatePacks p query

/-- The registry after a finite sequence of requests, served one after another. -/
def serveAll (p : PackSizesManager) (requests : List HandlerRequest) : PackSizesManager :=
  requests.foldl (fun p r => (serve p r).1) p

/-! ## Specification vocabulary for the optimizer -/

/-- A combination of packs drawn from `ps` with `t` items in `n` packs:
a list of packs, each of an available size, with sum `t` and length `n`. -/
def Reach (ps : List Int) (t n : Int) : Prop :=
  ∃ l : List Int, (∀ x ∈ l, x ∈ ps) ∧ l.sum = t ∧ (l.length : Int) = n

/-- The items shipped by the assignment giving `counts[i]` packs of size `ps[i]`
(a missing count is zero). -/
def comboItems (ps : List Int) (counts : List Nat) : Int :=
  ((ps.zip counts).map (fun e => e.1 * (e.2 : Int))).sum

/-- The number of packs used by the assignment giving `counts[i]` packs of size `ps[i]`. -/
def comboPacks (ps : List Int) (counts : List Nat) : Int :=
  ((ps.zip counts).map (fun e => (e.2 : Int))).sum

/-- A well-formed pack map over `ps`: one entry per key, every key an available
size, every count positive. -/
def MapOK (ps : List Int) (m : PackMap) : Prop :=
  (m.map Prod.fst).Nodup ∧ ∀ e ∈ m, e.1 ∈ ps ∧ 0 < e.2

/-- A table entry still holding the sentinel written at initialisation. -/
def Unreached (m : Nat) (s : solution) : Prop :=
  s = ⟨(m : Int) + 1, []⟩

/-- A table entry holding a combination for the total `t`. -/
def Reached (ps : List Int) (t : Int) (s : solution) : Prop :=
  s.totalItems = t ∧ MapOK ps s.packs ∧ sumItems s.packs = t ∧ Reach ps t (sumCounts s.packs)

/-- The entry for total `t` after the pack sizes in `tried` have been tried:
the sentinel if no tried size leads to a reachable predecessor, otherwise a
combination for `t` at least as good as any extension through a tried size. -/
def Mid (ps : List Int) (m : Nat) (t : Int) (tried : List Int) (s : solution) : Prop :=
  (Unreached m s ∧ ∀ p ∈ tried, p ≤ t → ∀ n, ¬ Reach ps (t - p) n) ∨
  (Reached ps t s ∧ ∀ p ∈ tried, p ≤ t → ∀ n, Reach ps (t - p) n → sumCounts s.packs ≤ n + 1)

/-- The entry for total `t` once its row is complete: the sentinel if `t` is not
a sum of packs, otherwise a combination for `t` with the fewest packs. -/
def Final (ps : List Int) (m : Nat) (t : Int) (s : solution) : Prop :=
  (Unreached m s ∧ ∀ n, ¬ Reach ps t n) ∨
  (Reached ps t s ∧ ∀ n, Reach ps t n → sumCounts s.packs ≤ n)

/-- The table while quantity `q` is being processed, the sizes in `tried` done. -/
def Filling (ps : List Int) (m q : Nat) (tried : List Int) (dp : List solution) : Prop :=
  dp.length = m + 1 ∧ ∀ i s, dp[i]? = some s →
    (i < q → Final ps m i s) ∧ (i = q → Mid ps m q tried s) ∧ (q < i → Unreached m s)

/-- The table with every quantity below `q` processed and the rest untouched. -/
def Filled (ps : List Int) (m q : Nat) (dp : List solution) : Prop :=
  dp.length = m + 1 ∧ ∀ i s, dp[i]? = some s →
    (i < q → Final ps m i s) ∧ (q ≤ i → Unreached m s)

/-- The state of the final scan after the quantities `orderQuantity .. k`. -/
def Scanned (ps : List Int) (m : Nat) (dp : List solution) (orderQuantity k : Int)
    (best : Int × solution) : Prop :=
  (best = ((m : Int) + 1, ⟨0, []⟩) ∧ ∀ t, orderQuantity ≤ t → t ≤ k → ∀ n, ¬ Reach ps t n) ∨
  (∃ t : Nat, orderQuantity ≤ t ∧ (t : Int) ≤ k ∧ best.1 = t ∧ dp[t]? = some best.2 ∧
    Reached ps t best.2 ∧ (∀ n, Reach ps t n → sumCounts best.2.packs ≤ n) ∧
    ∀ t', orderQuantity ≤ t' → t' < t → ∀ n, ¬ Reach ps t' n)

/-- What the optimizer promises for the order quantity and the available sizes:
the result ships enough, its map is well formed and adds up to the total, no
combination of packs reaches the order with fewer items, and no combination
with the same items uses fewer packs. -/
def Optimal (ps : List Int) (orderQuantity : Int) (r : PackCalculation) : Prop :=
  r.OrderQuantity = orderQuantity ∧ orderQuantity ≤ r.TotalItems ∧ MapOK ps r.Packs ∧
  sumItems r.Packs = r.TotalItems ∧ Reach ps r.TotalItems (sumCounts r.Packs) ∧
  (∀ t n, orderQuantity ≤ t → Reach ps t n → r.TotalItems ≤ t) ∧
  (∀ n, Reach ps r.TotalItems n → sumCounts r.Packs ≤ n)

/-- The table `CalculatePacks` builds for the order and the sizes can be
allocated: `orderQuantity + p + 1` is within `maxTableLen` for every available
size `p`, hence for the largest. -/
def TableFits (orderQuantity : Int) (packSizes : List Int) : Prop :=
  ∀ p ∈ packSizes, orderQuantity + p + 1 ≤ maxTableLen

instance (orderQuantity : Int) (packSizes : List Int) :
    Decidable (TableFits orderQuantity packSizes) :=
  inferInstanceAs (Decidable (∀ p ∈ packSizes, orderQuantity + p + 1 ≤ maxTableLen))

/-! ## Specification vocabulary for the tie-break among pack sizes -/

/-- A combination of packs from `ps` with total `t` that uses as few packs as any
combination with that total. -/
def MinCombo (ps : List Int) (t : Int) (l : List Int) : Prop :=
  (∀ x ∈ l, x ∈ ps) ∧ l.sum = t ∧
  ∀ l' : List Int, (∀ x ∈ l', x ∈ ps) → l'.sum = t → l.length ≤ l'.length

/-- The entry for total `t` while its row is processed: either still the
sentinel, or its map holds a pack of a tried size `p` through which the
entry's pack count is attained, and no smaller tried size attains it. -/
def TieMid (ps : List Int) (m : Nat) (t : Int) (tried : List Int) (s : solution) : Prop :=
  Unreached m s ∨
  ∃ p ∈ tried, 0 < mapGet s.packs p ∧ Reach ps (t - p) (sumCounts s.packs - 1) ∧
    ∀ p' ∈ tried, p' < p → ¬ Reach ps (t - p') (sumCounts s.packs - 1)

/-- The entry for total `t` once its row is complete: as `TieMid`, with every
available size tried. -/
def TieFinal (ps : List Int) (m : Nat) (t : Int) (s : solution) : Prop :=
  Unreached m s ∨
  ∃ p ∈ ps, 0 < mapGet s.packs p ∧ Reach ps (t - p) (sumCounts s.packs - 1) ∧
    ∀ p' ∈ ps, p' < p → ¬ Reach ps (t - p') (sumCounts s.packs - 1)

/-- The tie-break facts of the table while quantity `q` is being processed. -/
def TieFilling (ps : List Int) (m q : Nat) (tried : List Int) (dp : List solution) : Prop :=
  (∀ i s, dp[i]? = some s → 1 ≤ i → i < q → TieFinal ps m i s) ∧
  (∀ s, dp[q]? = some s → TieMid ps m q tried s)

/-- The tie-break facts of the table with every quantity below `q` processed. -/
def TieFilled (ps : List Int) (m q : Nat) (dp : List solution) : Prop :=
  ∀ i s, dp[i]? = some s → 1 ≤ i → i < q → TieFinal ps m i s

/-! ## Registry lemmas -/

theorem any_beq_iff (l : List Int) (x : Int) :
    l.any (fun s => s == x) = true ↔ x ∈ l := by
  simp [List.any_eq_true]

theorem filter_bne_eq (l : List Int) (x : Int) :
    l.filter (fun s => s != x) = l.filter (fun s => decide (s ≠ x)) := by
  congr 1
  funext s
  by_cases h : s = x <;> simp [h]

theorem mem_filter_bne (l : List Int) (x y : Int) :
    y ∈ l.filter (fun s => s != x) ↔ y ∈ l ∧ y ≠ x := by
  simp [List.mem_filter]

theorem sortInts_perm (l : List Int) : (sortInts l).Perm l :=
  List.perm_insertionSort _ l

theorem mem_sortInts (l : List Int) (x : Int) : x ∈ sortInts l ↔ x ∈ l :=
  (sortInts_perm l).mem_iff

theorem sortInts_sorted (l : List Int) : (sortInts l).Sorted (· ≤ ·) :=
  List.sorted_insertionSort _ l

theorem sortInts_strict (l : List Int) (h : l.Nodup) : (sortInts l).Sorted (· < ·) :=
  (sortInts_sorted l).lt_of_le ((sortInts_perm l).nodup_iff.mpr h)

theorem nodup_append_singleton (l : List Int) (x : Int) (h : l.Nodup) (hx : x ∉ l) :
    (l ++ [x]).Nodup := by
  rw [List.nodup_append]
  refine ⟨h, List.nodup_singleton x, ?_⟩
  intro a ha hb
  rw [List.mem_singleton] at hb
  exact hx (hb ▸ ha)

theorem AddSize_strict (p : PackSizesManager) (size : Int)
    (h : p.sizes.Sorted (· < ·)) : (AddSize p size).sizes.Sorted (· < ·) := by
  unfold AddSize
  split
  · exact h
  · rename_i hx
    rw [any_beq_iff] at hx
    exact sortInts_strict _ (nodup_append_singleton _ _ h.nodup hx)

theorem RemoveSize_strict (p : PackSizesManager) (size : Int)
    (h : p.sizes.Sorted (· < ·)) : (RemoveSize p size).sizes.Sorted (· < ·) :=
  List.Sorted.filter _ h

theorem UpdateSize_strict (p : PackSizesManager) (oldSize newSize : Int)
    (h : p.sizes.Sorted (· < ·)) : (UpdateSize p oldSize newSize).1.sizes.Sorted (· < ·) := by
  unfold UpdateSize
  by_cases ho : p.sizes.any (fun s => s == oldSize) = true
  · by_cases hn : p.sizes.any (fun s => s == newSize) = true
    · simp only [ho, hn, Bool.not_true, Bool.false_eq_true, if_false, if_true]
      exact h
    · simp only [ho, hn, Bool.not_true, Bool.false_eq_true, if_false]
      rw [any_beq_iff] at hn
      refine sortInts_strict _ (nodup_append_singleton _ _ (h.nodup.filter _) ?_)
      intro hmem
      exact hn ((mem_filter_bne _ _ _).mp hmem).1
  · simp only [ho, Bool.not_false, if_true]
    exact h

theorem applyCall_strict (p : PackSizesManager) (c : RegistryCall)
    (h : p.sizes.Sorted (· < ·)) : (applyCall p c).sizes.Sorted (· < ·) := by
  cases c with
  | addSize size => exact AddSize_strict p size h
  | removeSize size => exact RemoveSize_strict p size h
  | updateSize oldSize newSize => exact UpdateSize_strict p oldSize newSize h

theorem applyCalls_strict (calls : List RegistryCall) :
    ∀ p : PackSizesManager, p.sizes.Sorted (· < ·) →
      (applyCalls p calls).sizes.Sorted (· < ·) := by
  induction calls with
  | nil => intro p h; exact h
  | cons c rest ih =>
    intro p h
    exact ih (applyCall p c) (applyCall_strict p c h)

theorem default_strict : NewPackSizesManager.sizes.Sorted (· < ·) := by
  unfold NewPackSizesManager
  decide

theorem UpdateSize_result (p : PackSizesManager) (oldSize newSize : Int) :
    (oldSize ∉ p.sizes ∧
        UpdateSize p oldSize newSize = (p, some (UpdateError.oldSizeDoesNotExist oldSize))) ∨
    (oldSize ∈ p.sizes ∧ newSize ∈ p.sizes ∧
        UpdateSize p oldSize newSize = (p, some (UpdateError.newSizeAlreadyExists newSize))) ∨
    (oldSize ∈ p.sizes ∧ newSize ∉ p.sizes ∧
        UpdateSize p oldSize newSize =
          (⟨sortInts (p.sizes.filter (fun s => s != oldSize) ++ [newSize])⟩, none)) := by
  by_cases ho : p.sizes.any (fun s => s == oldSize) = true
  · by_cases hn : p.sizes.any (fun s => s == newSize) = true
    · refine Or.inr (Or.inl ⟨(any_beq_iff _ _).mp ho, (any_beq_iff _ _).mp hn, ?_⟩)
      simp only [UpdateSize, ho, hn, Bool.not_true, Bool.false_eq_true, if_false, if_true]
    · refine Or.inr (Or.inr ⟨(any_beq_iff _ _).mp ho, fun h => hn ((any_beq_iff _ _).mpr h), ?_⟩)
      simp only [UpdateSize, ho, hn, Bool.not_true, Bool.false_eq_true, if_false]
  · refine Or.inl ⟨fun h => ho ((any_beq_iff _ _).mpr h), ?_⟩
    simp only [UpdateSize, ho, Bool.not_false, if_true]

/-! ## Registry claims -/

/-- C8: starting from `NewPackSizesManager` and applying any finite sequence of `AddSize`,
`RemoveSize` and `UpdateSize` calls with arbitrary integer arguments, the list returned by
`GetSizes` is strictly ascending, hence free of duplicates. -/
theorem registry_strictly_ascending (calls : List RegistryCall) :
    (GetSizes (applyCalls NewPackSizesManager calls)).Sorted (· < ·) ∧
    (GetSizes (applyCalls NewPackSizesManager calls)).Nodup := by
  have h := applyCalls_strict calls NewPackSizesManager default_strict
  have hg : GetSizes (applyCalls NewPackSizesManager calls)
      = (applyCalls NewPackSizesManager calls).sizes := by simp [GetSizes]
  rw [hg]
  exact ⟨h, h.nodup⟩

/-- C9: `UpdateSize oldSize newSize` returns an error exactly when `oldSize` is absent or
`newSize` is present; the not-found error exactly when `oldSize` is absent, the conflict
error exactly when both are present; updating a present size to itself is a conflict. -/
theorem UpdateSize_error_iff (p : PackSizesManager) (oldSize newSize : Int) :
    ((UpdateSize p oldSize newSize).2 ≠ none ↔ (oldSize ∉ p.sizes ∨ newSize ∈ p.sizes)) ∧
    ((UpdateSize p oldSize newSize).2 = some (UpdateError.oldSizeDoesNotExist oldSize)
        ↔ oldSize ∉ p.sizes) ∧
    ((UpdateSize p oldSize newSize).2 = some (UpdateError.newSizeAlreadyExists newSize)
        ↔ (oldSize ∈ p.sizes ∧ newSize ∈ p.sizes)) ∧
    (oldSize ∈ p.sizes →
        (UpdateSize p oldSize oldSize).2 = some (UpdateError.newSizeAlreadyExists oldSize)) := by
  refine ⟨?_, ?_, ?_, ?_⟩
  · rcases UpdateSize_result p oldSize newSize with ⟨h, e⟩ | ⟨h, h', e⟩ | ⟨h, h', e⟩
    · rw [e]; simp [h]
    · rw [e]; simp [h']
    · rw [e]; simp [h, h']
  · rcases UpdateSize_result p oldSize newSize with ⟨h, e⟩ | ⟨h, _, e⟩ | ⟨h, _, e⟩
    · rw [e]; simp [h]
    · rw [e]; simp [h]
    · rw [e]; simp [h]
  · rcases UpdateSize_result p oldSize newSize with ⟨h, e⟩ | ⟨h, h', e⟩ | ⟨h, h', e⟩
    · rw [e]; simp [h]
    · rw [e]; simp [h, h']
    · rw [e]; simp [h']
  · intro hmem
    rcases UpdateSize_result p oldSize oldSize with ⟨h, _⟩ | ⟨_, _, e⟩ | ⟨_, h', _⟩
    · exact absurd hmem h
    · rw [e]
    · exact absurd hmem h'

/-- Witness for C9 on the default set: `UpdateSize 250 250` is a conflict. -/
theorem UpdateSize_error_iff_witness :
    (250 : Int) ∈ NewPackSizesManager.sizes ∧
    (UpdateSize NewPackSizesManager 250 250).2
      = some (UpdateError.newSizeAlreadyExists 250) :=
  ⟨by decide, (UpdateSize_error_iff NewPackSizesManager 250 250).2.2.2 (by decide)⟩

/-- C10: when `UpdateSize` returns an error, `GetSizes` afterwards returns the same list
as before the call. -/
theorem UpdateSize_error_unchanged (p : PackSizesManager) (oldSize newSize : Int)
    (herr : (UpdateSize p oldSize newSize).2 ≠ none) :
    GetSizes (UpdateSize p oldSize newSize).1 = GetSizes p := by
  rcases UpdateSize_result p oldSize newSize with ⟨_, e⟩ | ⟨_, _, e⟩ | ⟨_, _, e⟩
  · rw [e]
  · rw [e]
  · rw [e] at herr
    exact absurd rfl herr

/-- Witness for C10: the conflict `UpdateSize 250 500` on the default set leaves
`[250, 500, 1000, 2000, 5000]`. -/
theorem UpdateSize_error_unchanged_witness :
    (UpdateSize NewPackSizesManager 250 500).2 ≠ none ∧
    GetSizes (UpdateSize NewPackSizesManager 250 500).1 = [250, 500, 1000, 2000, 5000] :=
  ⟨by decide, UpdateSize_error_unchanged NewPackSizesManager 250 500 (by decide)⟩

/-! ## Pack maps -/

theorem sumCounts_mapSet (m : PackMap) (k v : Int) :
    sumCounts (mapSet m k v) = sumCounts m - mapGet m k + v := by
  induction m with
  | nil => simp [mapSet, mapGet, sumCounts]
  | cons e rest ih =>
    obtain ⟨k', v'⟩ := e
    by_cases h : k' = k
    · simp only [mapSet, mapGet, sumCounts, h, if_true, List.map_cons, List.sum_cons]
      ring
    · simp only [sumCounts] at ih
      simp only [mapSet, mapGet, sumCounts, h, if_false, List.map_cons, List.sum_cons, ih]
      ring

theorem sumItems_mapSet (m : PackMap) (k v : Int) :
    sumItems (mapSet m k v) = sumItems m - k * mapGet m k + k * v := by
  induction m with
  | nil => simp [mapSet, mapGet, sumItems]
  | cons e rest ih =>
    obtain ⟨k', v'⟩ := e
    by_cases h : k' = k
    · simp only [mapSet, mapGet, sumItems, h, if_true, List.map_cons, List.sum_cons]
      ring
    · simp only [sumItems] at ih
      simp only [mapSet, mapGet, sumItems, h, if_false, List.map_cons, List.sum_cons, ih]
      ring

theorem mem_mapSet (m : PackMap) (k v : Int) (e : Int × Int) (he : e ∈ mapSet m k v) :
    e = (k, v) ∨ e ∈ m := by
  induction m with
  | nil =>
    simp only [mapSet, List.mem_singleton] at he
    exact Or.inl he
  | cons e' rest ih =>
    obtain ⟨k', v'⟩ := e'
    by_cases h : k' = k
    · simp only [mapSet, h, if_true, List.mem_cons] at he
      rcases he with he | he
      · exact Or.inl he
      · exact Or.inr (List.mem_cons_of_mem _ he)
    · simp only [mapSet, h, if_false, List.mem_cons] at he
      rcases he with he | he
      · exact Or.inr (by rw [he]; exact List.mem_cons_self _ _)
      · rcases ih he with h1 | h1
        · exact Or.inl h1
        · exact Or.inr (List.mem_cons_of_mem _ h1)

theorem mem_keys_mapSet (m : PackMap) (k v x : Int)
    (hx : x ∈ (mapSet m k v).map Prod.fst) : x = k ∨ x ∈ m.map Prod.fst := by
  induction m with
  | nil =>
    simp only [mapSet, List.map_cons, List.map_nil, List.mem_singleton] at hx
    exact Or.inl hx
  | cons e' rest ih =>
    obtain ⟨k', v'⟩ := e'
    by_cases h : k' = k
    · simp only [mapSet, h, if_true, List.map_cons, List.mem_cons] at hx
      rcases hx with hx | hx
      · exact Or.inl hx
      · exact Or.inr (by simp only [List.map_cons, List.mem_cons]; exact Or.inr hx)
    · simp only [mapSet, h, if_false, List.map_cons, List.mem_cons] at hx
      rcases hx with hx | hx
      · exact Or.inr (by simp only [List.map_cons, List.mem_cons]; exact Or.inl hx)
      · rcases ih hx with h1 | h1
        · exact Or.inl h1
        · exact Or.inr (by simp only [List.map_cons, List.mem_cons]; exact Or.inr h1)

theorem nodup_keys_mapSet (m : PackMap) (k v : Int) (h : (m.map Prod.fst).Nodup) :
    ((mapSet m k v).map Prod.fst).Nodup := by
  induction m with
  | nil => simp [mapSet]
  | cons e' rest ih =>
    obtain ⟨k', v'⟩ := e'
    simp only [List.map_cons, List.nodup_cons] at h
    by_cases hk : k' = k
    · simp only [mapSet, hk, if_true, List.map_cons, List.nodup_cons]
      exact ⟨hk ▸ h.1, h.2⟩
    · simp only [mapSet, hk, if_false, List.map_cons, List.nodup_cons]
      refine ⟨?_, ih h.2⟩
      intro hmem
      rcases mem_keys_mapSet rest k v k' hmem with h1 | h1
      · exact hk h1
      · exact h.1 h1

theorem mapGet_nonneg (ps : List Int) (m : PackMap) (k : Int) (h : MapOK ps m) :
    0 ≤ mapGet m k := by
  induction m with
  | nil => simp [mapGet]
  | cons e' rest ih =>
    obtain ⟨k', v'⟩ := e'
    have hrest : MapOK ps rest := by
      refine ⟨?_, fun e he => h.2 e (List.mem_cons_of_mem _ he)⟩
      have := h.1
      simp only [List.map_cons, List.nodup_cons] at this
      exact this.2
    by_cases hk : k' = k
    · simp only [mapGet, hk, if_true]
      exact le_of_lt (h.2 (k', v') (List.mem_cons_self _ _)).2
    · simp only [mapGet, hk, if_false]
      exact ih hrest

theorem MapOK_nil (ps : List Int) : MapOK ps [] := by
  refine ⟨by simp, ?_⟩
  intro e he
  exact absurd he (List.not_mem_nil e)

/-- The statement `newPacks[packSize]++` keeps a pack map well formed. -/
theorem MapOK_incr (ps : List Int) (m : PackMap) (k : Int) (h : MapOK ps m) (hk : k ∈ ps) :
    MapOK ps (mapSet m k (mapGet m k + 1)) := by
  refine ⟨nodup_keys_mapSet m k _ h.1, ?_⟩
  intro e he
  rcases mem_mapSet m k _ e he with h1 | h1
  · rw [h1]
    exact ⟨hk, by have := mapGet_nonneg ps m k h; omega⟩
  · exact h.2 e h1

theorem sumCounts_incr (m : PackMap) (k : Int) :
    sumCounts (mapSet m k (mapGet m k + 1)) = sumCounts m + 1 := by
  rw [sumCounts_mapSet]; ring

theorem sumItems_incr (m : PackMap) (k : Int) :
    sumItems (mapSet m k (mapGet m k + 1)) = sumItems m + k := by
  rw [sumItems_mapSet]; ring

/-! ## Combinations of packs -/

theorem Reach_zero (ps : List Int) : Reach ps 0 0 :=
  ⟨[], by simp, by simp, by simp⟩

theorem Reach_cons (ps : List Int) (t n p : Int) (hp : p ∈ ps) (h : Reach ps t n) :
    Reach ps (t + p) (n + 1) := by
  obtain ⟨l, hl, hs, hn⟩ := h
  refine ⟨p :: l, ?_, ?_, ?_⟩
  · intro x hx
    rcases List.mem_cons.mp hx with h1 | h1
    · exact h1 ▸ hp
    · exact hl x h1
  · simp only [List.sum_cons]; omega
  · simp only [List.length_cons]; push_cast; omega

theorem Reach_mono (ps ps' : List Int) (t n : Int) (hsub : ∀ x ∈ ps, x ∈ ps')
    (h : Reach ps t n) : Reach ps' t n := by
  obtain ⟨l, hl, hs, hn⟩ := h
  exact ⟨l, fun x hx => hsub x (hl x hx), hs, hn⟩

theorem sum_nonneg_of_pos (ps l : List Int) (hpos : ∀ x ∈ ps, 0 < x) (hl : ∀ x ∈ l, x ∈ ps) :
    0 ≤ l.sum := by
  induction l with
  | nil => simp
  | cons a rest ih =>
    have ha := hpos a (hl a (List.mem_cons_self _ _))
    have hr := ih (fun x hx => hl x (List.mem_cons_of_mem _ hx))
    simp only [List.sum_cons]; omega

theorem Reach_count_nonneg (ps : List Int) (t n : Int) (h : Reach ps t n) : 0 ≤ n := by
  obtain ⟨l, _, _, hn⟩ := h
  omega

/-- A combination with a positive total contains a pack; removing it leaves a
combination for the smaller total with one pack less. -/
theorem Reach_split (ps : List Int) (t n : Int) (hpos : ∀ x ∈ ps, 0 < x)
    (h : Reach ps t n) (ht : 0 < t) :
    ∃ p ∈ ps, p ≤ t ∧ Reach ps (t - p) (n - 1) := by
  obtain ⟨l, hl, hs, hn⟩ := h
  cases l with
  | nil => simp at hs; omega
  | cons a rest =>
    have hrest : ∀ x ∈ rest, x ∈ ps := fun x hx => hl x (List.mem_cons_of_mem _ hx)
    have h0 := sum_nonneg_of_pos ps rest hpos hrest
    simp only [List.sum_cons] at hs
    simp only [List.length_cons] at hn
    push_cast at hn
    refine ⟨a, hl a (List.mem_cons_self _ _), by omega, rest, hrest, by omega, by omega⟩

/-- Repeating one available pack size `c` times. -/
theorem Reach_replicate (ps : List Int) (p : Int) (c : Nat) (hp : p ∈ ps) :
    Reach ps (p * c) c := by
  induction c with
  | zero => simpa using Reach_zero ps
  | succ c ih =>
    have := Reach_cons ps _ _ p hp ih
    have e : p * ((c + 1 : Nat) : Int) = p * (c : Int) + p := by push_cast; ring
    rw [e]
    exact_mod_cast this

theorem Reach_add (ps : List Int) (t n t' n' : Int) (h : Reach ps t n) (h' : Reach ps t' n') :
    Reach ps (t + t') (n + n') := by
  obtain ⟨l, hl, hs, hn⟩ := h
  obtain ⟨l', hl', hs', hn'⟩ := h'
  refine ⟨l ++ l', ?_, ?_, ?_⟩
  · intro x hx
    rcases List.mem_append.mp hx with h1 | h1
    · exact hl x h1
    · exact hl' x h1
  · simp only [List.sum_append]; omega
  · simp only [List.length_append]; push_cast; omega

/-- Every assignment of counts to the pack sizes is a combination of packs. -/
theorem Reach_of_counts (ps : List Int) :
    ∀ counts : List Nat, Reach ps (comboItems ps counts) (comboPacks ps counts) := by
  suffices H : ∀ (qs : List Int) (counts : List Nat), (∀ x ∈ qs, x ∈ ps) →
      Reach ps (comboItems qs counts) (comboPacks qs counts) from
    fun counts => H ps counts (fun _ hx => hx)
  intro qs
  induction qs with
  | nil =>
    intro counts _
    simpa [comboItems, comboPacks] using Reach_zero ps
  | cons q rest ih =>
    intro counts hsub
    cases counts with
    | nil => simpa [comboItems, comboPacks] using Reach_zero ps
    | cons c cs =>
      have h1 := Reach_replicate ps q c (hsub q (List.mem_cons_self _ _))
      have h2 := ih cs (fun x hx => hsub x (List.mem_cons_of_mem _ hx))
      have := Reach_add ps _ _ _ _ h1 h2
      simpa [comboItems, comboPacks] using this

/-! ## Loops -/

/-- Invariant rule for a fallible loop over `lo, lo+1, ..., lo-1+n`. -/
theorem foldlM_range_inv {σ : Type} (f : σ → Int → Option σ) (lo : Int)
    (I : Int → σ → Prop) :
    ∀ (n : Nat) (s0 : σ), I (lo - 1) s0 →
      (∀ k s, lo ≤ k → k ≤ lo - 1 + n → I (k - 1) s → ∃ s', f s k = some s' ∧ I k s') →
      ∃ s', ((List.range n).map (fun k : Nat => lo + (k : Int))).foldlM f s0 = some s' ∧
        I (lo - 1 + n) s' := by
  intro n
  induction n with
  | zero =>
    intro s0 h0 _
    refine ⟨s0, rfl, ?_⟩
    simpa using h0
  | succ n ih =>
    intro s0 h0 hstep
    obtain ⟨s1, hs1, hI1⟩ := ih s0 h0 (fun k s hk hk' hI =>
      hstep k s hk (by push_cast; omega) hI)
    have hk1 : lo + (n : Int) - 1 = lo - 1 + n := by omega
    obtain ⟨s2, hs2, hI2⟩ := hstep (lo + n) s1 (by omega) (by push_cast; omega)
      (by rw [hk1]; exact hI1)
    refine ⟨s2, ?_, ?_⟩
    · rw [List.range_succ, List.map_append, List.foldlM_append, hs1]
      simp only [List.map_cons, List.map_nil, List.foldlM_cons, List.foldlM_nil]
      show (f s1 (lo + n)) >>= pure = some s2
      rw [hs2]
      rfl
    · have e : lo - 1 + ((n + 1 : Nat) : Int) = lo + n := by push_cast; omega
      rw [e]
      exact hI2

/-- Invariant rule for the loop `for q := lo; q <= hi; q++`. -/
theorem quantities_inv {σ : Type} (f : σ → Int → Option σ) (lo hi : Int)
    (I : Int → σ → Prop) (s0 : σ) (hle : lo - 1 ≤ hi) (h0 : I (lo - 1) s0)
    (hstep : ∀ k s, lo ≤ k → k ≤ hi → I (k - 1) s → ∃ s', f s k = some s' ∧ I k s') :
    ∃ s', (quantities lo hi).foldlM f s0 = some s' ∧ I hi s' := by
  have hn : lo - 1 + ((hi + 1 - lo).toNat : Int) = hi := by
    rw [Int.toNat_of_nonneg (by omega)]; omega
  obtain ⟨s', h1, h2⟩ := foldlM_range_inv f lo I (hi + 1 - lo).toNat s0 h0
    (fun k s hk hk' hI => hstep k s hk (by omega) hI)
  refine ⟨s', by unfold quantities; exact h1, ?_⟩
  rw [hn] at h2
  exact h2

theorem index_natCast (dp : List solution) (i : Nat) : index dp (i : Int) = dp[i]? := by
  unfold index
  have : ¬ ((i : Int) < 0) := by omega
  rw [if_neg this, Int.toNat_ofNat]

/-! ## The inner loop -/

theorem Mid_cons (ps : List Int) (m : Nat) (t : Int) (tried : List Int) (s : solution)
    (p : Int) (h : Mid ps m t tried s)
    (h1 : p ≤ t → Unreached m s → ∀ n, ¬ Reach ps (t - p) n)
    (h2 : p ≤ t → Reached ps t s → ∀ n, Reach ps (t - p) n → sumCounts s.packs ≤ n + 1) :
    Mid ps m t (p :: tried) s := by
  rcases h with ⟨hu, hb⟩ | ⟨hr, hb⟩
  · refine Or.inl ⟨hu, ?_⟩
    intro p' hp' hle
    rcases List.mem_cons.mp hp' with e | e
    · rw [e]; rw [e] at hle; exact h1 hle hu
    · exact hb p' e hle
  · refine Or.inr ⟨hr, ?_⟩
    intro p' hp' hle
    rcases List.mem_cons.mp hp' with e | e
    · rw [e]; rw [e] at hle; exact h2 hle hr
    · exact hb p' e hle

/-- Inside the 64-bit range `wrapInt` changes nothing. -/
theorem wrapInt_eq (x : Int) (h1 : -9223372036854775808 ≤ x) (h2 : x < 9223372036854775808) :
    wrapInt x = x := by
  unfold wrapInt
  omega

/-- Values up to twice the longest table are inside the 64-bit range. -/
theorem wrapInt_small (x : Int) (h1 : 0 ≤ x) (h2 : x ≤ 2 * maxTableLen) : wrapInt x = x := by
  unfold maxTableLen at h2
  exact wrapInt_eq x (by omega) (by omega)

theorem length_le_sum (l : List Int) (h : ∀ x ∈ l, 0 < x) : (l.length : Int) ≤ l.sum := by
  induction l with
  | nil => simp
  | cons a rest ih =>
    have ha := h a (List.mem_cons_self _ _)
    have hr := ih (fun x hx => h x (List.mem_cons_of_mem _ hx))
    simp only [List.length_cons, List.sum_cons]
    push_cast
    omega

/-- A combination of positive packs has at most as many packs as items. -/
theorem Reach_count_le (ps : List Int) (t n : Int) (hpos : ∀ x ∈ ps, 0 < x)
    (h : Reach ps t n) : n ≤ t := by
  obtain ⟨l, hl, hs, hn⟩ := h
  have := length_le_sum l (fun x hx => hpos x (hl x hx))
  omega

theorem mapGet_le_sumCounts (m : PackMap) (k : Int) (h : ∀ e ∈ m, 0 < e.2) :
    0 ≤ sumCounts m ∧ mapGet m k ≤ sumCounts m := by
  induction m with
  | nil => simp [sumCounts, mapGet]
  | cons e rest ih =>
    obtain ⟨k', v'⟩ := e
    have hv : 0 < v' := h (k', v') (List.mem_cons_self _ _)
    obtain ⟨i1, i2⟩ := ih (fun e he => h e (List.mem_cons_of_mem _ he))
    have hC : sumCounts ((k', v') :: rest) = v' + sumCounts rest := by simp [sumCounts]
    rw [hC]
    by_cases hk : k' = k
    · simp only [mapGet, hk, if_true]
      omega
    · simp only [mapGet, hk, if_false]
      omega

/-- The numbers held by a table entry for the total `t` are small. -/
theorem Reached_bounds (ps : List Int) (t : Int) (s : solution) (hpos : ∀ x ∈ ps, 0 < x)
    (h : Reached ps t s) :
    0 ≤ sumCounts s.packs ∧ sumCounts s.packs ≤ t ∧
      ∀ k, 0 ≤ mapGet s.packs k ∧ mapGet s.packs k ≤ t := by
  obtain ⟨_, hOK, _, hR⟩ := h
  have h1 := Reach_count_nonneg ps t _ hR
  have h2 := Reach_count_le ps t _ hpos hR
  refine ⟨h1, h2, fun k => ⟨mapGet_nonneg ps s.packs k hOK, ?_⟩⟩
  have := (mapGet_le_sumCounts s.packs k (fun e he => (hOK.2 e he).2)).2
  omega

theorem Unreached_bounds (m : Nat) (s : solution) (h : Unreached m s) :
    sumCounts s.packs = 0 ∧ ∀ k, mapGet s.packs k = 0 := by
  rw [h]
  exact ⟨rfl, fun _ => rfl⟩

/-- Within a table that `make` allocates, no arithmetic of the loop body wraps. -/
theorem noWrap_step (ps : List Int) (m q j : Nat) (tried : List Int) (prev cur : solution)
    (p : Int) (hpos : ∀ x ∈ ps, 0 < x) (hfit : (m : Int) + 1 ≤ maxTableLen) (hq : q ≤ m)
    (hp0 : 0 < p) (hj : (j : Int) = q - p)
    (hprev : Final ps m j prev) (hcur : Mid ps m q tried cur) :
    wrapInt ((q : Int) - p) = q - p ∧
    wrapInt (prev.totalItems + p) = prev.totalItems + p ∧
    wrapInt (sumCounts prev.packs) = sumCounts prev.packs ∧
    wrapInt (sumCounts cur.packs) = sumCounts cur.packs ∧
    wrapInt (sumCounts prev.packs + 1) = sumCounts prev.packs + 1 ∧
    wrapInt (mapGet prev.packs p + 1) = mapGet prev.packs p + 1 := by
  have hprevB : (prev.totalItems = (m : Int) + 1 ∨ prev.totalItems = j) ∧
      0 ≤ sumCounts prev.packs ∧ sumCounts prev.packs ≤ j ∧
      0 ≤ mapGet prev.packs p ∧ mapGet prev.packs p ≤ j := by
    rcases hprev with ⟨hu, _⟩ | ⟨hr, _⟩
    · obtain ⟨b1, b2⟩ := Unreached_bounds m prev hu
      have b3 := b2 p
      refine ⟨Or.inl (by rw [hu]), ?_, ?_, ?_, ?_⟩ <;> omega
    · obtain ⟨b1, b2, b3⟩ := Reached_bounds ps j prev hpos hr
      exact ⟨Or.inr hr.1, b1, b2, (b3 p).1, (b3 p).2⟩
  have hcurB : 0 ≤ sumCounts cur.packs ∧ sumCounts cur.packs ≤ q := by
    rcases hcur with ⟨hu, _⟩ | ⟨hr, _⟩
    · obtain ⟨b1, _⟩ := Unreached_bounds m cur hu
      omega
    · obtain ⟨b1, b2, _⟩ := Reached_bounds ps q cur hpos hr
      exact ⟨b1, b2⟩
  obtain ⟨a1, a2, a3, a4, a5⟩ := hprevB
  refine ⟨wrapInt_small _ (by omega) (by omega), wrapInt_small _ ?_ ?_,
    wrapInt_small _ (by omega) (by omega), wrapInt_small _ (by omega) (by omega),
    wrapInt_small _ (by omega) (by omega), wrapInt_small _ (by omega) (by omega)⟩
  · rcases a1 with a1 | a1 <;> omega
  · rcases a1 with a1 | a1 <;> omega

theorem tryPack_eq (quantity : Int) (dp : List solution) (packSize : Int)
    (prevSolution current : solution) (hle : packSize ≤ quantity)
    (h1 : index dp (quantity - packSize) = some prevSolution)
    (h2 : index dp quantity = some current)
    (e1 : wrapInt (quantity - packSize) = quantity - packSize)
    (e2 : wrapInt (prevSolution.totalItems + packSize) = prevSolution.totalItems + packSize)
    (e3 : wrapInt (sumCounts prevSolution.packs) = sumCounts prevSolution.packs)
    (e4 : wrapInt (sumCounts current.packs) = sumCounts current.packs)
    (e5 : wrapInt (sumCounts prevSolution.packs + 1) = sumCounts prevSolution.packs + 1)
    (e6 : wrapInt (mapGet prevSolution.packs packSize + 1)
      = mapGet prevSolution.packs packSize + 1) :
    tryPack quantity dp packSize =
      if prevSolution.totalItems + packSize < current.totalItems ∨
          (prevSolution.totalItems + packSize = current.totalItems ∧
            sumCounts prevSolution.packs + 1 < sumCounts current.packs) then
        some (dp.set quantity.toNat ⟨prevSolution.totalItems + packSize,
          mapSet prevSolution.packs packSize (mapGet prevSolution.packs packSize + 1)⟩)
      else some dp := by
  have hgt : ¬ (packSize > quantity) := by omega
  simp only [tryPack, if_neg hgt, e1, h1, h2, e2, e3, e4, e5, e6]

theorem Reached_extend (ps : List Int) (j q : Nat) (p : Int) (prev : solution)
    (hp : p ∈ ps) (hj : (j : Int) = q - p) (hr : Reached ps j prev) :
    Reached ps q ⟨prev.totalItems + p, mapSet prev.packs p (mapGet prev.packs p + 1)⟩ := by
  obtain ⟨h1, h2, h3, h4⟩ := hr
  refine ⟨?_, MapOK_incr ps _ p h2 hp, ?_, ?_⟩
  · show prev.totalItems + p = q
    omega
  · show sumItems (mapSet prev.packs p (mapGet prev.packs p + 1)) = q
    rw [sumItems_incr]; omega
  · show Reach ps q (sumCounts (mapSet prev.packs p (mapGet prev.packs p + 1)))
    rw [sumCounts_incr]
    have := Reach_cons ps _ _ p hp h4
    have e : (j : Int) + p = q := by omega
    rw [e] at this
    exact this

/-- One iteration of the inner loop keeps the table invariant and records the
tried pack size. -/
theorem tryPack_step (ps : List Int) (m q : Nat) (tried : List Int) (dp : List solution)
    (p : Int) (hpos : ∀ x ∈ ps, 0 < x) (hp : p ∈ ps) (hq : q ≤ m)
    (hfit : (m : Int) + 1 ≤ maxTableLen) (h : Filling ps m q tried dp) :
    ∃ dp', tryPack q dp p = some dp' ∧ Filling ps m q (p :: tried) dp' := by
  obtain ⟨hlen, hall⟩ := h
  have hp0 := hpos p hp
  have hqlt : q < dp.length := by omega
  obtain ⟨cur, hcur⟩ : ∃ s, dp[q]? = some s := ⟨dp[q], List.getElem?_eq_getElem hqlt⟩
  have hcurMid : Mid ps m q tried cur := (hall q cur hcur).2.1 rfl
  by_cases hgt : p > (q : Int)
  · refine ⟨dp, by simp only [tryPack, if_pos hgt], hlen, ?_⟩
    intro i s hs
    obtain ⟨a, b, c⟩ := hall i s hs
    refine ⟨a, ?_, c⟩
    intro hi
    exact Mid_cons ps m q tried s p (b hi) (fun hle => absurd hle (by omega))
      (fun hle => absurd hle (by omega))
  · have hle : p ≤ (q : Int) := by omega
    obtain ⟨j, hj⟩ : ∃ j : Nat, (j : Int) = q - p :=
      ⟨((q : Int) - p).toNat, Int.toNat_of_nonneg (by omega)⟩
    have hjq : j < q := by omega
    have hjlt : j < dp.length := by omega
    obtain ⟨prev, hprev⟩ : ∃ s, dp[j]? = some s := ⟨dp[j], List.getElem?_eq_getElem hjlt⟩
    have hprevFinal : Final ps m j prev := (hall j prev hprev).1 hjq
    have hidx1 : index dp ((q : Int) - p) = some prev := by
      rw [← hj, index_natCast]; exact hprev
    have hidx2 : index dp (q : Int) = some cur := by
      rw [index_natCast]; exact hcur
    obtain ⟨w1, w2, w3, w4, w5, w6⟩ :=
      noWrap_step ps m q j tried prev cur p hpos hfit hq hp0 hj hprevFinal hcurMid
    rw [tryPack_eq q dp p prev cur hle hidx1 hidx2 w1 w2 w3 w4 w5 w6]
    have hcurTotal : cur.totalItems = (m : Int) + 1 ∨ cur.totalItems = q := by
      rcases hcurMid with ⟨hu, _⟩ | ⟨hr, _⟩
      · left; rw [hu]
      · right; exact hr.1
    by_cases hb : prev.totalItems + p < cur.totalItems ∨
        (prev.totalItems + p = cur.totalItems ∧ sumCounts prev.packs + 1 < sumCounts cur.packs)
    · rw [if_pos hb]
      refine ⟨_, rfl, ?_⟩
      rcases hprevFinal with ⟨hu, _⟩ | ⟨hr, hmin⟩
      · exfalso
        have e : prev.totalItems = (m : Int) + 1 := by rw [hu]
        rcases hb with hb | ⟨hb, _⟩ <;> rcases hcurTotal with hc | hc <;> omega
      · have hnew := Reached_extend ps j q p prev hp hj hr
        have hprevTotal : prev.totalItems = j := hr.1
        refine ⟨by rw [List.length_set]; exact hlen, ?_⟩
        intro i s hs
        simp only [Int.toNat_ofNat] at hs
        by_cases hi : i = q
        · subst hi
          rw [List.getElem?_set_self hqlt] at hs
          have hs' := (Option.some.inj hs).symm
          subst hs'
          refine ⟨fun hlt => absurd hlt (lt_irrefl _), fun _ => ?_,
            fun hlt => absurd hlt (lt_irrefl _)⟩
          refine Or.inr ⟨hnew, ?_⟩
          intro p' hp' hle' n hn
          show sumCounts (mapSet prev.packs p (mapGet prev.packs p + 1)) ≤ n + 1
          rw [sumCounts_incr]
          rcases List.mem_cons.mp hp' with e | e
          · rw [e, ← hj] at hn
            have := hmin n hn
            omega
          · rcases hcurMid with ⟨_, hno⟩ | ⟨hcr, hbound⟩
            · exact absurd hn (hno p' e hle' n)
            · have h1 := hbound p' e hle' n hn
              have h2 : cur.totalItems = i := hcr.1
              rcases hb with hb | ⟨_, hb⟩ <;> omega
        · rw [List.getElem?_set_ne (Ne.symm hi)] at hs
          obtain ⟨a, b, c⟩ := hall i s hs
          exact ⟨a, fun hi' => absurd hi' hi, c⟩
    · rw [if_neg hb]
      refine ⟨dp, rfl, hlen, ?_⟩
      intro i s hs
      obtain ⟨a, b, c⟩ := hall i s hs
      refine ⟨a, ?_, c⟩
      intro hi
      subst hi
      have hsc : s = cur := Option.some.inj (hs.symm.trans hcur)
      subst hsc
      refine Mid_cons ps m i tried s p hcurMid ?_ ?_
      · intro _ hu n hn
        rcases hprevFinal with ⟨_, hno⟩ | ⟨hr, _⟩
        · rw [← hj] at hn
          exact hno n hn
        · have h1 : prev.totalItems = j := hr.1
          have h2 : s.totalItems = (m : Int) + 1 := by rw [hu]
          exact hb (Or.inl (by omega))
      · intro _ hcr n hn
        rcases hprevFinal with ⟨_, hno⟩ | ⟨hr, hmin⟩
        · rw [← hj] at hn
          exact absurd hn (hno n)
        · have h1 : prev.totalItems = j := hr.1
          have h2 : s.totalItems = i := hcr.1
          rw [← hj] at hn
          have h3 := hmin n hn
          by_contra hcon
          exact hb (Or.inr ⟨by omega, by omega⟩)

theorem foldlM_tryPack (ps : List Int) (m q : Nat) (hpos : ∀ x ∈ ps, 0 < x) (hq : q ≤ m)
    (hfit : (m : Int) + 1 ≤ maxTableLen) :
    ∀ (todo tried : List Int) (dp : List solution), (∀ x ∈ todo, x ∈ ps) →
      Filling ps m q tried dp →
      ∃ dp', todo.foldlM (tryPack q) dp = some dp' ∧
        Filling ps m q (todo.reverse ++ tried) dp' := by
  intro todo
  induction todo with
  | nil =>
    intro tried dp _ h
    exact ⟨dp, rfl, by simpa using h⟩
  | cons p rest ih =>
    intro tried dp hsub h
    obtain ⟨dp1, h1, hF1⟩ := tryPack_step ps m q tried dp p hpos
      (hsub p (List.mem_cons_self _ _)) hq hfit h
    obtain ⟨dp2, h2, hF2⟩ := ih (p :: tried) dp1
      (fun x hx => hsub x (List.mem_cons_of_mem _ hx)) hF1
    refine ⟨dp2, ?_, ?_⟩
    · rw [List.foldlM_cons, h1]
      exact h2
    · have e : (p :: rest).reverse ++ tried = rest.reverse ++ p :: tried := by simp
      rw [e]
      exact hF2

theorem Filled_Filling (ps : List Int) (m q : Nat) (dp : List solution)
    (h : Filled ps m q dp) : Filling ps m q [] dp := by
  refine ⟨h.1, ?_⟩
  intro i s hs
  obtain ⟨a, b⟩ := h.2 i s hs
  refine ⟨a, ?_, fun hlt => b (le_of_lt hlt)⟩
  intro hi
  refine Or.inl ⟨b (le_of_eq hi.symm), ?_⟩
  intro p hp
  exact absurd hp (List.not_mem_nil p)

theorem Mid_Final (ps : List Int) (m q : Nat) (tried : List Int) (s : solution)
    (hpos : ∀ x ∈ ps, 0 < x) (hall : ∀ x ∈ ps, x ∈ tried) (hq : 1 ≤ q)
    (h : Mid ps m q tried s) : Final ps m q s := by
  have hq0 : (0 : Int) < q := by omega
  rcases h with ⟨hu, hno⟩ | ⟨hr, hb⟩
  · refine Or.inl ⟨hu, ?_⟩
    intro n hn
    obtain ⟨p, hp, hle, hsub⟩ := Reach_split ps q n hpos hn hq0
    exact hno p (hall p hp) hle _ hsub
  · refine Or.inr ⟨hr, ?_⟩
    intro n hn
    obtain ⟨p, hp, hle, hsub⟩ := Reach_split ps q n hpos hn hq0
    have := hb p (hall p hp) hle _ hsub
    omega

theorem Filling_Filled (ps : List Int) (m q : Nat) (tried : List Int) (dp : List solution)
    (hpos : ∀ x ∈ ps, 0 < x) (hall : ∀ x ∈ ps, x ∈ tried) (hq : 1 ≤ q)
    (h : Filling ps m q tried dp) : Filled ps m (q + 1) dp := by
  refine ⟨h.1, ?_⟩
  intro i s hs
  obtain ⟨a, b, c⟩ := h.2 i s hs
  refine ⟨?_, fun hle => c (by omega)⟩
  intro hlt
  by_cases hi : i = q
  · rw [hi]
    exact Mid_Final ps m q tried s hpos hall hq (b hi)
  · exact a (by omega)

/-- One iteration of the outer loop completes the row of quantity `q`. -/
theorem fillQuantity_step (ps ss : List Int) (m q : Nat) (dp : List solution)
    (hpos : ∀ x ∈ ps, 0 < x) (hss : ∀ x, x ∈ ss ↔ x ∈ ps) (hq1 : 1 ≤ q) (hq : q ≤ m)
    (hfit : (m : Int) + 1 ≤ maxTableLen) (h : Filled ps m q dp) :
    ∃ dp', fillQuantity ss dp q = some dp' ∧ Filled ps m (q + 1) dp' := by
  obtain ⟨dp', h1, h2⟩ := foldlM_tryPack ps m q hpos hq hfit ss [] dp
    (fun x hx => (hss x).mp hx) (Filled_Filling ps m q dp h)
  refine ⟨dp', h1, Filling_Filled ps m q _ dp' hpos ?_ hq1 h2⟩
  intro x hx
  simp only [List.append_nil, List.mem_reverse]
  exact (hss x).mpr hx

/-- The table after the fill loop: every entry is final. -/
theorem fillTable_spec (ps ss : List Int) (m : Nat) (dp : List solution)
    (hpos : ∀ x ∈ ps, 0 < x) (hss : ∀ x, x ∈ ss ↔ x ∈ ps)
    (hfit : (m : Int) + 1 ≤ maxTableLen) (h : Filled ps m 1 dp) :
    ∃ dp', fillTable ss m dp = some dp' ∧ Filled ps m (m + 1) dp' := by
  obtain ⟨dp', h1, q, hq, hF⟩ := quantities_inv (fillQuantity ss) 1 (m : Int)
    (fun k d => ∃ q : Nat, (q : Int) = k + 1 ∧ Filled ps m q d) dp (by omega)
    ⟨1, by omega, h⟩
    (by
      intro k d hk1 hkm hI
      obtain ⟨q, hq, hF⟩ := hI
      have hk : k = (q : Int) := by omega
      obtain ⟨d', hd1, hd2⟩ :=
        fillQuantity_step ps ss m q d hpos hss (by omega) (by omega) hfit hF
      refine ⟨d', by rw [hk]; exact hd1, q + 1, by push_cast; omega, hd2⟩)
  have e : q = m + 1 := by omega
  rw [e] at hF
  exact ⟨dp', h1, hF⟩

/-! ## The final scan -/

theorem scanStep_step (ps : List Int) (m : Nat) (dp : List solution) (orderQuantity k : Int)
    (best : Int × solution) (hF : Filled ps m (m + 1) dp)
    (h0 : 0 ≤ orderQuantity) (hk : orderQuantity ≤ k) (hkm : k ≤ m)
    (h : Scanned ps m dp orderQuantity (k - 1) best) :
    ∃ best', scanStep dp best k = some best' ∧ Scanned ps m dp orderQuantity k best' := by
  obtain ⟨kn, hkn⟩ : ∃ kn : Nat, (kn : Int) = k := ⟨k.toNat, Int.toNat_of_nonneg (by omega)⟩
  have hlt : kn < dp.length := by rw [hF.1]; omega
  obtain ⟨e, he⟩ : ∃ s, dp[kn]? = some s := ⟨dp[kn], List.getElem?_eq_getElem hlt⟩
  have heF : Final ps m kn e := (hF.2 kn e he).1 (by omega)
  have hidx : index dp k = some e := by rw [← hkn, index_natCast]; exact he
  have hstep : scanStep dp best k =
      if e.totalItems < best.1 then some (e.totalItems, e) else some best := by
    simp only [scanStep, hidx]
  rw [hstep]
  rcases h with ⟨hb, hno⟩ | ⟨t, ht1, ht2, ht3, ht4, ht5, ht6, ht7⟩
  · rcases heF with ⟨hu, hno'⟩ | ⟨hr, hmin⟩
    · have e1 : e.totalItems = (m : Int) + 1 := by rw [hu]
      have e2 : best.1 = (m : Int) + 1 := by rw [hb]
      rw [if_neg (by omega)]
      refine ⟨best, rfl, Or.inl ⟨hb, ?_⟩⟩
      intro t' h1 h2 n hn
      by_cases h3 : t' = k
      · rw [h3, ← hkn] at hn
        exact hno' n hn
      · exact hno t' h1 (by omega) n hn
    · have e1 : e.totalItems = kn := hr.1
      have e2 : best.1 = (m : Int) + 1 := by rw [hb]
      rw [if_pos (by omega)]
      refine ⟨_, rfl, Or.inr ⟨kn, by omega, by omega, e1, he, hr, hmin, ?_⟩⟩
      intro t' h1 h2 n hn
      exact hno t' h1 (by omega) n hn
  · have e1 : e.totalItems = (m : Int) + 1 ∨ e.totalItems = kn := by
      rcases heF with ⟨hu, _⟩ | ⟨hr, _⟩
      · left; rw [hu]
      · right; exact hr.1
    rw [if_neg (by rcases e1 with e1 | e1 <;> omega)]
    exact ⟨best, rfl, Or.inr ⟨t, ht1, by omega, ht3, ht4, ht5, ht6, ht7⟩⟩

theorem findBest_spec (ps : List Int) (m : Nat) (dp : List solution) (orderQuantity : Int)
    (hF : Filled ps m (m + 1) dp) (h0 : 0 ≤ orderQuantity) (hle : orderQuantity ≤ m)
    (hfit : (m : Int) + 1 ≤ maxTableLen) :
    ∃ best, findBest dp orderQuantity m = some best ∧
      Scanned ps m dp orderQuantity m best := by
  unfold findBest
  rw [wrapInt_small ((m : Int) + 1) (by omega) (by omega)]
  exact quantities_inv (scanStep dp) orderQuantity (m : Int)
    (fun k b => Scanned ps m dp orderQuantity k b) _ (by omega)
    (Or.inl ⟨rfl, fun t h1 h2 => absurd h2 (by omega)⟩)
    (fun k b hk hkm hI => scanStep_step ps m dp orderQuantity k b hF h0 hk hkm hI)

/-- Some multiple of an available pack size lies in the window of the final scan. -/
theorem exists_reach_window (ps : List Int) (orderQuantity p : Int) (hp : p ∈ ps)
    (hpos : 0 < p) (h0 : 0 ≤ orderQuantity) :
    ∃ t n, orderQuantity ≤ t ∧ t < orderQuantity + p ∧ Reach ps t n := by
  have h1 := Int.emod_add_ediv (orderQuantity + p - 1) p
  have h2 := Int.emod_nonneg (orderQuantity + p - 1) (ne_of_gt hpos)
  have h3 := Int.emod_lt_of_pos (orderQuantity + p - 1) hpos
  have h4 : 0 ≤ (orderQuantity + p - 1) / p := Int.ediv_nonneg (by omega) (le_of_lt hpos)
  obtain ⟨c, hc⟩ : ∃ c : Nat, (c : Int) = (orderQuantity + p - 1) / p :=
    ⟨((orderQuantity + p - 1) / p).toNat, Int.toNat_of_nonneg h4⟩
  rw [← hc] at h1
  exact ⟨p * c, c, by omega, by omega, Reach_replicate ps p c hp⟩

/-! ## The whole function -/

theorem init_spec (m : Nat) (hfit : (m : Int) + 1 ≤ maxTableLen) :
    (initTable m).bind setBase =
      some (⟨0, []⟩ :: List.replicate m ⟨(m : Int) + 1, []⟩) := by
  have hw := wrapInt_small ((m : Int) + 1) (by omega) (by omega)
  have h : ¬ ((m : Int) + 1 < 0 ∨ maxTableLen < (m : Int) + 1) := by omega
  simp only [initTable, hw, if_neg h, Int.toNat_ofNat_add_one, List.replicate_succ,
    Option.some_bind, setBase]

theorem init_Filled (ps : List Int) (m : Nat) :
    Filled ps m 1 (⟨0, []⟩ :: List.replicate m ⟨(m : Int) + 1, []⟩) := by
  refine ⟨by simp, ?_⟩
  intro i s hs
  cases i with
  | zero =>
    simp only [List.getElem?_cons_zero, Option.some.injEq] at hs
    subst hs
    refine ⟨fun _ => ?_, fun h => absurd h (by omega)⟩
    refine Or.inr ⟨⟨by simp, MapOK_nil ps, by simp [sumItems], ?_⟩, ?_⟩
    · simpa [sumCounts] using Reach_zero ps
    · intro n hn
      simpa [sumCounts] using Reach_count_nonneg ps _ n hn
  | succ i =>
    simp only [List.getElem?_cons_succ, List.getElem?_replicate] at hs
    refine ⟨fun h => absurd h (by omega), fun _ => ?_⟩
    by_cases hi : i < m
    · rw [if_pos hi] at hs
      exact (Option.some.inj hs).symm
    · rw [if_neg hi] at hs
      exact absurd hs (by simp)

/-- The smallest element comes first after sorting. -/
theorem sortInts_head (ps : List Int) (hne : ps ≠ []) :
    ∃ sm rest, sortInts ps = sm :: rest ∧ sm ∈ ps ∧ ∀ x ∈ ps, sm ≤ x := by
  cases hs : sortInts ps with
  | nil =>
    have := (sortInts_perm ps).symm
    rw [hs] at this
    exact absurd this.eq_nil hne
  | cons sm rest =>
    have hsorted := sortInts_sorted ps
    rw [hs] at hsorted
    refine ⟨sm, rest, rfl, ?_, ?_⟩
    · rw [← mem_sortInts, hs]; exact List.mem_cons_self _ _
    · intro x hx
      rw [← mem_sortInts, hs] at hx
      rcases List.mem_cons.mp hx with e | e
      · rw [e]
      · exact List.rel_of_sorted_cons hsorted x e

theorem sortInts_last (ps : List Int) (hne : ps ≠ []) :
    ∃ lg, (sortInts ps).getLast? = some lg ∧ lg ∈ ps := by
  have hne' : sortInts ps ≠ [] := by
    intro h
    have := (sortInts_perm ps).symm
    rw [h] at this
    exact hne this.eq_nil
  refine ⟨(sortInts ps).getLast hne', List.getLast?_eq_getLast _ hne', ?_⟩
  rw [← mem_sortInts]
  exact List.getLast_mem hne'

theorem CalculatePacks_zero (packSizes : List Int) :
    CalculatePacks 0 packSizes = some ⟨0, [], 0⟩ := by
  simp only [CalculatePacks, if_true]

theorem CalculatePacks_small (orderQuantity : Int) (packSizes : List Int) (sm : Int)
    (hz : orderQuantity ≠ 0) (hhead : (sortInts packSizes).head? = some sm)
    (hlt : orderQuantity < sm) :
    CalculatePacks orderQuantity packSizes = some ⟨orderQuantity, [(sm, 1)], sm⟩ := by
  simp only [CalculatePacks, if_neg hz, hhead, if_pos hlt, mapSet]

theorem CalculatePacks_general (orderQuantity : Int) (packSizes : List Int) (sm lg : Int)
    (dp0 dp1 : List solution) (best : Int × solution)
    (hz : orderQuantity ≠ 0) (hhead : (sortInts packSizes).head? = some sm)
    (hlt : ¬ orderQuantity < sm) (hlast : (sortInts packSizes).getLast? = some lg)
    (hM : wrapInt (orderQuantity + lg) = orderQuantity + lg)
    (hinit : (initTable (orderQuantity + lg)).bind setBase = some dp0)
    (hfill : fillTable (sortInts packSizes) (orderQuantity + lg) dp0 = some dp1)
    (hbest : findBest dp1 orderQuantity (orderQuantity + lg) = some best) :
    CalculatePacks orderQuantity packSizes =
      some ⟨orderQuantity, best.2.packs, best.2.totalItems⟩ := by
  simp only [CalculatePacks, if_neg hz, hhead, if_neg hlt, hlast, hM, hinit, hfill,
    Option.some_bind, hbest]

/-- On every valid input `CalculatePacks` returns, and its result is optimal. -/
theorem CalculatePacks_spec (orderQuantity : Int) (packSizes : List Int)
    (h0 : 0 ≤ orderQuantity) (hne : packSizes ≠ []) (hpos : ∀ p ∈ packSizes, 0 < p)
    (hfit : (∃ p ∈ packSizes, p ≤ orderQuantity) → TableFits orderQuantity packSizes) :
    ∃ r, CalculatePacks orderQuantity packSizes = some r ∧
      Optimal packSizes orderQuantity r := by
  by_cases hz : orderQuantity = 0
  · subst hz
    refine ⟨_, CalculatePacks_zero packSizes, rfl, le_refl _, MapOK_nil _, by simp [sumItems],
      by simpa [sumCounts] using Reach_zero packSizes, fun t n h _ => h, ?_⟩
    intro n hn
    simpa [sumCounts] using Reach_count_nonneg packSizes _ n hn
  obtain ⟨sm, rest, hsort, hsm, hmin⟩ := sortInts_head packSizes hne
  have hhead : (sortInts packSizes).head? = some sm := by rw [hsort]; rfl
  have hsm0 := hpos sm hsm
  by_cases hlt : orderQuantity < sm
  · refine ⟨_, CalculatePacks_small orderQuantity packSizes sm hz hhead hlt, rfl,
      le_of_lt hlt, ?_, by simp [sumItems], ?_, ?_, ?_⟩
    · refine ⟨by simp, ?_⟩
      intro e he
      rw [List.mem_singleton] at he
      rw [he]
      exact ⟨hsm, by omega⟩
    · have := Reach_cons packSizes 0 0 sm hsm (Reach_zero packSizes)
      simpa [sumCounts] using this
    · intro t n ht hn
      obtain ⟨p, hp, hle, _⟩ := Reach_split packSizes t n hpos hn (by omega)
      have := hmin p hp
      show sm ≤ t
      omega
    · intro n hn
      obtain ⟨p, _, _, hsub⟩ := Reach_split packSizes sm n hpos hn hsm0
      have := Reach_count_nonneg packSizes _ _ hsub
      simp only [sumCounts, List.map_cons, List.map_nil, List.sum_cons, List.sum_nil]
      omega
  · obtain ⟨lg, hlast, hlg⟩ := sortInts_last packSizes hne
    have hlg0 := hpos lg hlg
    obtain ⟨m, hm⟩ : ∃ m : Nat, (m : Int) = orderQuantity + lg :=
      ⟨(orderQuantity + lg).toNat, Int.toNat_of_nonneg (by omega)⟩
    have hfitm : (m : Int) + 1 ≤ maxTableLen := by
      have := hfit ⟨sm, hsm, by omega⟩ lg hlg
      omega
    have hM : wrapInt (orderQuantity + lg) = orderQuantity + lg :=
      wrapInt_small _ (by omega) (by omega)
    have hinit := init_spec m hfitm
    obtain ⟨dp1, hfill, hF⟩ := fillTable_spec packSizes (sortInts packSizes) m _ hpos
      (mem_sortInts packSizes) hfitm (init_Filled packSizes m)
    obtain ⟨best, hbest, hS⟩ :=
      findBest_spec packSizes m dp1 orderQuantity hF h0 (by omega) hfitm
    rw [hm] at hinit hfill hbest
    refine ⟨_, CalculatePacks_general orderQuantity packSizes sm lg _ dp1 best hz hhead hlt
      hlast hM hinit hfill hbest, rfl, ?_⟩
    rcases hS with ⟨_, hno⟩ | ⟨t, ht1, _, _, _, ht5, ht6, ht7⟩
    · exfalso
      obtain ⟨t, n, h1, h2, h3⟩ := exists_reach_window packSizes orderQuantity lg hlg hlg0 h0
      exact hno t h1 (by omega) n h3
    · obtain ⟨e1, e2, e3, e4⟩ := ht5
      refine ⟨?_, e2, ?_, ?_, ?_, ?_⟩
      · show orderQuantity ≤ best.2.totalItems
        omega
      · show sumItems best.2.packs = best.2.totalItems
        omega
      · show Reach packSizes best.2.totalItems (sumCounts best.2.packs)
        rw [e1]; exact e4
      · intro t' n h1 h2
        show best.2.totalItems ≤ t'
        by_contra hcon
        exact ht7 t' h1 (by omega) n h2
      · intro n hn
        show sumCounts best.2.packs ≤ n
        have hn' : Reach packSizes (best.2.totalItems) n := hn
        rw [e1] at hn'
        exact ht6 n hn'

/-- At the largest `int` with the single size 1, `orderQuantity + 1` wraps to a
negative number and `make` panics. -/
theorem CalculatePacks_wraps_order : CalculatePacks 9223372036854775807 [1] = none := by
  decide

/-- With the largest `int` among the sizes, `orderQuantity + packSizes[len-1]`
wraps to a negative number and `make` panics. -/
theorem CalculatePacks_wraps_size : CalculatePacks 1 [1, 9223372036854775807] = none := by
  decide

/-- One element more than `make` allocates: the call panics without any wrap. -/
theorem CalculatePacks_too_long : CalculatePacks 17592186044415 [1] = none := by
  decide

/-! ## Optimizer claims -/

/-- C1 as stated fails: for the order `2^63 - 1` and the single size 1 the sum
`orderQuantity + 1` wraps, `make` panics and no result is returned. -/
theorem CalculatePacks_sufficient_fails :
    (0 : Int) ≤ 9223372036854775807 ∧ ([1] : List Int) ≠ [] ∧
    (∀ p ∈ ([1] : List Int), 0 < p) ∧
    ¬ ∃ r, CalculatePacks 9223372036854775807 [1] = some r ∧
      9223372036854775807 ≤ r.TotalItems := by
  refine ⟨by decide, by decide, by decide, ?_⟩
  rintro ⟨r, hr, _⟩
  rw [CalculatePacks_wraps_order] at hr
  exact absurd hr (by simp)

/-- C1, amended: sufficiency. For every order quantity `>= 0` and every non-empty
list of positive pack sizes whose table can be allocated (unless the order is
below every size, `orderQuantity + p + 1 <= 2^44` for every size `p`),
`CalculatePacks` returns a result whose `TotalItems` is at least the order
quantity; for a positive order the result is therefore never the zero-valued
solution. -/
theorem CalculatePacks_sufficient (orderQuantity : Int) (packSizes : List Int)
    (h0 : 0 ≤ orderQuantity) (hne : packSizes ≠ []) (hpos : ∀ p ∈ packSizes, 0 < p)
    (hfit : (∃ p ∈ packSizes, p ≤ orderQuantity) → TableFits orderQuantity packSizes) :
    ∃ r, CalculatePacks orderQuantity packSizes = some r ∧ orderQuantity ≤ r.TotalItems ∧
      (0 < orderQuantity → 0 < r.TotalItems ∧ r.Packs ≠ []) := by
  obtain ⟨r, hr, _, h2, _, h4, _, _, _⟩ :=
    CalculatePacks_spec orderQuantity packSizes h0 hne hpos hfit
  refine ⟨r, hr, h2, fun hq => ⟨by omega, ?_⟩⟩
  intro hnil
  rw [hnil] at h4
  simp only [sumItems, List.map_nil, List.sum_nil] at h4
  omega

/-- Witness for C1: order 7 with sizes 5 and 2. -/
theorem CalculatePacks_sufficient_witness :
    ∃ r, CalculatePacks 7 [5, 2] = some r ∧ (7 : Int) ≤ r.TotalItems ∧
      ((0 : Int) < 7 → 0 < r.TotalItems ∧ r.Packs ≠ []) :=
  CalculatePacks_sufficient 7 [5, 2] (by decide) (by decide) (by decide) (fun _ => by decide)

/-- C2 as stated fails: for the order 1 and the sizes 1 and `2^63 - 1` the sum
`orderQuantity + packSizes[len-1]` wraps, `make` panics and no `TotalItems` is
returned. -/
theorem CalculatePacks_min_items_fails :
    (0 : Int) ≤ 1 ∧ ([1, 9223372036854775807] : List Int) ≠ [] ∧
    (∀ p ∈ ([1, 9223372036854775807] : List Int), 0 < p) ∧
    ¬ ∃ r, CalculatePacks 1 [1, 9223372036854775807] = some r ∧
      ∀ counts : List Nat, ¬ ((1 : Int) ≤ comboItems [1, 9223372036854775807] counts ∧
        comboItems [1, 9223372036854775807] counts < r.TotalItems) := by
  refine ⟨by decide, by decide, by decide, ?_⟩
  rintro ⟨r, hr, _⟩
  rw [CalculatePacks_wraps_size] at hr
  exact absurd hr (by simp)

/-- C2, amended: optimality in items. For every order quantity `>= 0` and every
non-empty list of positive pack sizes whose table can be allocated (unless the
order is below every size, `orderQuantity + p + 1 <= 2^44` for every size `p`),
`CalculatePacks` returns a result and no assignment of counts to the pack sizes has a
total that is at least the order quantity and strictly smaller than the returned
`TotalItems`. -/
theorem CalculatePacks_min_items (orderQuantity : Int) (packSizes : List Int)
    (h0 : 0 ≤ orderQuantity) (hne : packSizes ≠ []) (hpos : ∀ p ∈ packSizes, 0 < p)
    (hfit : (∃ p ∈ packSizes, p ≤ orderQuantity) → TableFits orderQuantity packSizes) :
    ∃ r, CalculatePacks orderQuantity packSizes = some r ∧
      ∀ counts : List Nat, ¬ (orderQuantity ≤ comboItems packSizes counts ∧
        comboItems packSizes counts < r.TotalItems) := by
  obtain ⟨r, hr, _, _, _, _, _, h6, _⟩ :=
    CalculatePacks_spec orderQuantity packSizes h0 hne hpos hfit
  refine ⟨r, hr, ?_⟩
  intro counts hc
  have := h6 _ _ hc.1 (Reach_of_counts packSizes counts)
  omega

/-- Witness for C2: order 1200 with sizes 1000, 250 and 500. -/
theorem CalculatePacks_min_items_witness :
    ∃ r, CalculatePacks 1200 [1000, 250, 500] = some r ∧
      ∀ counts : List Nat, ¬ ((1200 : Int) ≤ comboItems [1000, 250, 500] counts ∧
        comboItems [1000, 250, 500] counts < r.TotalItems) :=
  CalculatePacks_min_items 1200 [1000, 250, 500] (by decide) (by decide) (by decide)
    (fun _ => by decide)

/-- C3 as stated fails: for the order `2^63 - 1` and the single size 1 no `Packs`
mapping is returned, because `orderQuantity + 1` wraps and `make` panics. -/
theorem CalculatePacks_min_packs_fails :
    (0 : Int) ≤ 9223372036854775807 ∧ ([1] : List Int) ≠ [] ∧
    (∀ p ∈ ([1] : List Int), 0 < p) ∧
    ¬ ∃ r, CalculatePacks 9223372036854775807 [1] = some r ∧
      ∀ counts : List Nat, comboItems [1] counts = r.TotalItems →
        sumCounts r.Packs ≤ comboPacks [1] counts := by
  refine ⟨by decide, by decide, by decide, ?_⟩
  rintro ⟨r, hr, _⟩
  rw [CalculatePacks_wraps_order] at hr
  exact absurd hr (by simp)

/-- C3, amended: optimality in pack count. For every order quantity `>= 0` and
every non-empty list of positive pack sizes whose table can be allocated (unless
the order is below every size, `orderQuantity + p + 1 <= 2^44` for every size
`p`), `CalculatePacks` returns a result and every assignment of counts to the pack
sizes whose total equals the returned `TotalItems` uses at least as many packs
as the returned `Packs` mapping. -/
theorem CalculatePacks_min_packs (orderQuantity : Int) (packSizes : List Int)
    (h0 : 0 ≤ orderQuantity) (hne : packSizes ≠ []) (hpos : ∀ p ∈ packSizes, 0 < p)
    (hfit : (∃ p ∈ packSizes, p ≤ orderQuantity) → TableFits orderQuantity packSizes) :
    ∃ r, CalculatePacks orderQuantity packSizes = some r ∧
      ∀ counts : List Nat, comboItems packSizes counts = r.TotalItems →
        sumCounts r.Packs ≤ comboPacks packSizes counts := by
  obtain ⟨r, hr, _, _, _, _, _, _, h7⟩ :=
    CalculatePacks_spec orderQuantity packSizes h0 hne hpos hfit
  refine ⟨r, hr, ?_⟩
  intro counts hc
  have := Reach_of_counts packSizes counts
  rw [hc] at this
  exact h7 _ this

/-- Witness for C3: order 750 with sizes 250, 500 and 1000. -/
theorem CalculatePacks_min_packs_witness :
    ∃ r, CalculatePacks 750 [250, 500, 1000] = some r ∧
      ∀ counts : List Nat, comboItems [250, 500, 1000] counts = r.TotalItems →
        sumCounts r.Packs ≤ comboPacks [250, 500, 1000] counts :=
  CalculatePacks_min_packs 750 [250, 500, 1000] (by decide) (by decide) (by decide)
    (fun _ => by decide)

/-- C4: for order quantity `0` and any list of pack sizes (in particular any
non-empty one), `CalculatePacks` returns the empty mapping, `TotalItems = 0` and
`OrderQuantity = 0`. -/
theorem CalculatePacks_zero_order (packSizes : List Int) :
    ∃ r, CalculatePacks 0 packSizes = some r ∧
      r.Packs = [] ∧ r.TotalItems = 0 ∧ r.OrderQuantity = 0 :=
  ⟨_, CalculatePacks_zero packSizes, rfl, rfl, rfl⟩

/-- C5: when `0 < orderQuantity < min(packSizes)`, whatever the order of the
list, `CalculatePacks` returns exactly one pack of the smallest size `m` and
`TotalItems = m`. -/
theorem CalculatePacks_below_smallest (orderQuantity : Int) (packSizes : List Int) (m : Int)
    (hm : m ∈ packSizes) (hmin : ∀ x ∈ packSizes, m ≤ x)
    (h0 : 0 < orderQuantity) (hlt : orderQuantity < m) :
    CalculatePacks orderQuantity packSizes = some ⟨orderQuantity, [(m, 1)], m⟩ := by
  have hne : packSizes ≠ [] := List.ne_nil_of_mem hm
  obtain ⟨sm, rest, hsort, hsm, hmin'⟩ := sortInts_head packSizes hne
  have e : sm = m := le_antisymm (hmin' m hm) (hmin sm hsm)
  have hhead : (sortInts packSizes).head? = some m := by rw [hsort, e]; rfl
  exact CalculatePacks_small orderQuantity packSizes m (by omega) hhead hlt

/-- Witness for C5: order 100 with sizes 1000, 250 and 500 gives one pack of 250. -/
theorem CalculatePacks_below_smallest_witness :
    CalculatePacks 100 [1000, 250, 500] = some ⟨100, [(250, 1)], 250⟩ :=
  CalculatePacks_below_smallest 100 [1000, 250, 500] 250 (by decide) (by decide)
    (by decide) (by decide)

/-- C6 as stated fails: for the order 1 and the sizes 1 and `2^63 - 1` nothing is
returned whose `TotalItems` could equal a sum, because
`orderQuantity + packSizes[len-1]` wraps and `make` panics. -/
theorem CalculatePacks_total_is_sum_fails :
    (0 : Int) ≤ 1 ∧ ([1, 9223372036854775807] : List Int) ≠ [] ∧
    (∀ p ∈ ([1, 9223372036854775807] : List Int), 0 < p) ∧
    ¬ ∃ r, CalculatePacks 1 [1, 9223372036854775807] = some r ∧
      r.TotalItems = sumItems r.Packs := by
  refine ⟨by decide, by decide, by decide, ?_⟩
  rintro ⟨r, hr, _⟩
  rw [CalculatePacks_wraps_size] at hr
  exact absurd hr (by simp)

/-- C6, amended: for every order quantity `>= 0` and every non-empty list of
positive pack sizes whose table can be allocated (unless the order is below
every size, `orderQuantity + p + 1 <= 2^44` for every size `p`),
`CalculatePacks` returns a result and the returned `TotalItems` equals the sum of `size * count` over the
entries of the returned `Packs` mapping, which has one entry per key. -/
theorem CalculatePacks_total_is_sum (orderQuantity : Int) (packSizes : List Int)
    (h0 : 0 ≤ orderQuantity) (hne : packSizes ≠ []) (hpos : ∀ p ∈ packSizes, 0 < p)
    (hfit : (∃ p ∈ packSizes, p ≤ orderQuantity) → TableFits orderQuantity packSizes) :
    ∃ r, CalculatePacks orderQuantity packSizes = some r ∧
      r.TotalItems = sumItems r.Packs ∧ (r.Packs.map Prod.fst).Nodup := by
  obtain ⟨r, hr, _, _, h3, h4, _, _, _⟩ :=
    CalculatePacks_spec orderQuantity packSizes h0 hne hpos hfit
  exact ⟨r, hr, h4.symm, h3.1⟩

/-- Witness for C6: order 12001 with the default sizes. -/
theorem CalculatePacks_total_is_sum_witness :
    ∃ r, CalculatePacks 12001 [250, 500, 1000, 2000, 5000] = some r ∧
      r.TotalItems = sumItems r.Packs ∧ (r.Packs.map Prod.fst).Nodup :=
  CalculatePacks_total_is_sum 12001 [250, 500, 1000, 2000, 5000] (by decide) (by decide)
    (by decide) (fun _ => by decide)

/-- C7 as stated fails: for the order `2^63 - 1` and the single size 1 no `Packs`
mapping is returned, because `orderQuantity + 1` wraps and `make` panics. -/
theorem CalculatePacks_keys_and_counts_fails :
    (0 : Int) ≤ 9223372036854775807 ∧ ([1] : List Int) ≠ [] ∧
    (∀ p ∈ ([1] : List Int), 0 < p) ∧
    ¬ ∃ r, CalculatePacks 9223372036854775807 [1] = some r ∧
      ∀ e ∈ r.Packs, e.1 ∈ ([1] : List Int) ∧ 0 < e.2 := by
  refine ⟨by decide, by decide, by decide, ?_⟩
  rintro ⟨r, hr, _⟩
  rw [CalculatePacks_wraps_order] at hr
  exact absurd hr (by simp)

/-- C7, amended: for every order quantity `>= 0` and every non-empty list of
positive pack sizes whose table can be allocated (unless the order is below
every size, `orderQuantity + p + 1 <= 2^44` for every size `p`),
`CalculatePacks` returns a result and every key of the returned `Packs` mapping is an element of `packSizes`
and every stored count is positive. -/
theorem CalculatePacks_keys_and_counts (orderQuantity : Int) (packSizes : List Int)
    (h0 : 0 ≤ orderQuantity) (hne : packSizes ≠ []) (hpos : ∀ p ∈ packSizes, 0 < p)
    (hfit : (∃ p ∈ packSizes, p ≤ orderQuantity) → TableFits orderQuantity packSizes) :
    ∃ r, CalculatePacks orderQuantity packSizes = some r ∧
      ∀ e ∈ r.Packs, e.1 ∈ packSizes ∧ 0 < e.2 := by
  obtain ⟨r, hr, _, _, h3, _, _, _, _⟩ :=
    CalculatePacks_spec orderQuantity packSizes h0 hne hpos hfit
  exact ⟨r, hr, h3.2⟩

/-- Witness for C7: order 6 with sizes 4, 3, 2 and a repeated 2. -/
theorem CalculatePacks_keys_and_counts_witness :
    ∃ r, CalculatePacks 6 [4, 3, 2, 2] = some r ∧
      ∀ e ∈ r.Packs, e.1 ∈ ([4, 3, 2, 2] : List Int) ∧ 0 < e.2 :=
  CalculatePacks_keys_and_counts 6 [4, 3, 2, 2] (by decide) (by decide) (by decide)
    (fun _ => by decide)

/-! ## Registry operations in detail -/

theorem GetSizes_eq (p : PackSizesManager) : GetSizes p = p.sizes := by
  simp [GetSizes]

theorem AddSize_present (p : PackSizesManager) (size : Int) (h : size ∈ p.sizes) :
    AddSize p size = p := by
  have := (any_beq_iff p.sizes size).mpr h
  simp only [AddSize, this, if_true]

theorem AddSize_absent (p : PackSizesManager) (size : Int) (h : size ∉ p.sizes) :
    AddSize p size = ⟨sortInts (p.sizes ++ [size])⟩ := by
  have : ¬ (p.sizes.any (fun s => s == size) = true) := fun h' => h ((any_beq_iff _ _).mp h')
  simp only [AddSize, this, Bool.false_eq_true, if_false]

theorem mem_AddSize (p : PackSizesManager) (size x : Int) :
    x ∈ (AddSize p size).sizes ↔ x ∈ p.sizes ∨ x = size := by
  by_cases h : size ∈ p.sizes
  · rw [AddSize_present p size h]
    constructor
    · exact Or.inl
    · rintro (h1 | h1)
      · exact h1
      · rw [h1]; exact h
  · rw [AddSize_absent p size h]
    show x ∈ sortInts (p.sizes ++ [size]) ↔ _
    rw [mem_sortInts, List.mem_append, List.mem_singleton]

/-- C11: on a strictly ascending registry containing `oldSize` and not containing
`newSize`, `UpdateSize` returns no error, and afterwards `GetSizes` is the
ascending arrangement of the previous elements with `oldSize` removed and
`newSize` inserted: same length, `newSize` present, `oldSize` absent, every other
element kept and nothing else added. -/
theorem UpdateSize_success (p : PackSizesManager) (oldSize newSize : Int)
    (hs : p.sizes.Sorted (· < ·)) (ho : oldSize ∈ p.sizes) (hn : newSize ∉ p.sizes) :
    (UpdateSize p oldSize newSize).2 = none ∧
    (GetSizes (UpdateSize p oldSize newSize).1).Sorted (· < ·) ∧
    (GetSizes (UpdateSize p oldSize newSize).1).Perm (newSize :: p.sizes.erase oldSize) ∧
    (GetSizes (UpdateSize p oldSize newSize).1).length = (GetSizes p).length ∧
    newSize ∈ GetSizes (UpdateSize p oldSize newSize).1 ∧
    oldSize ∉ GetSizes (UpdateSize p oldSize newSize).1 ∧
    (∀ x ∈ p.sizes, x ≠ oldSize → x ∈ GetSizes (UpdateSize p oldSize newSize).1) ∧
    (∀ x ∈ GetSizes (UpdateSize p oldSize newSize).1, x = newSize ∨ x ∈ p.sizes) := by
  have hstrict := UpdateSize_strict p oldSize newSize hs
  rcases UpdateSize_result p oldSize newSize with ⟨h, _⟩ | ⟨_, h, _⟩ | ⟨_, _, e⟩
  · exact absurd ho h
  · exact absurd h hn
  · rw [e] at hstrict
    rw [e]
    simp only [GetSizes_eq]
    have herase : p.sizes.filter (fun s => s != oldSize) = p.sizes.erase oldSize :=
      (hs.nodup.erase_eq_filter oldSize).symm
    have hperm : (sortInts (p.sizes.filter (fun s => s != oldSize) ++ [newSize])).Perm
        (newSize :: p.sizes.erase oldSize) := by
      rw [herase]
      exact (sortInts_perm _).trans (List.perm_append_singleton newSize _)
    have hne : oldSize ≠ newSize := fun h => hn (h ▸ ho)
    have hmem : ∀ x, x ∈ sortInts (p.sizes.filter (fun s => s != oldSize) ++ [newSize]) ↔
        (x ∈ p.sizes ∧ x ≠ oldSize) ∨ x = newSize := by
      intro x
      rw [mem_sortInts, List.mem_append, List.mem_singleton, mem_filter_bne]
    refine ⟨trivial, hstrict, hperm, ?_, ?_, ?_, ?_, ?_⟩
    · rw [hperm.length_eq, List.length_cons, List.length_erase_of_mem ho]
      have := List.length_pos_of_mem ho
      omega
    · exact (hmem newSize).mpr (Or.inr rfl)
    · intro h
      rcases (hmem oldSize).mp h with ⟨_, h1⟩ | h1
      · exact h1 rfl
      · exact hne h1
    · intro x hx hxo
      exact (hmem x).mpr (Or.inl ⟨hx, hxo⟩)
    · intro x hx
      rcases (hmem x).mp hx with ⟨h1, _⟩ | h1
      · exact Or.inr h1
      · exact Or.inl h1

/-- Witness for C11: `UpdateSize 250 300` on the default set gives
`[300, 500, 1000, 2000, 5000]` in the listed sense. -/
theorem UpdateSize_success_witness :
    (UpdateSize NewPackSizesManager 250 300).2 = none ∧
    (GetSizes (UpdateSize NewPackSizesManager 250 300).1).Sorted (· < ·) ∧
    (GetSizes (UpdateSize NewPackSizesManager 250 300).1).Perm
      (300 :: NewPackSizesManager.sizes.erase 250) ∧
    (GetSizes (UpdateSize NewPackSizesManager 250 300).1).length
      = (GetSizes NewPackSizesManager).length ∧
    (300 : Int) ∈ GetSizes (UpdateSize NewPackSizesManager 250 300).1 ∧
    (250 : Int) ∉ GetSizes (UpdateSize NewPackSizesManager 250 300).1 ∧
    (∀ x ∈ NewPackSizesManager.sizes, x ≠ 250 →
      x ∈ GetSizes (UpdateSize NewPackSizesManager 250 300).1) ∧
    (∀ x ∈ GetSizes (UpdateSize NewPackSizesManager 250 300).1,
      x = 300 ∨ x ∈ NewPackSizesManager.sizes) :=
  UpdateSize_success NewPackSizesManager 250 300 default_strict (by decide) (by decide)

/-- C12: `AddSize` leaves `GetSizes` unchanged when the size is already present
(so adding twice equals adding once); otherwise the new list is the ascending
arrangement of the old elements plus the size: one longer, containing the size
and every old element. -/
theorem AddSize_spec (p : PackSizesManager) (size : Int) :
    (size ∈ p.sizes → GetSizes (AddSize p size) = GetSizes p) ∧
    AddSize (AddSize p size) size = AddSize p size ∧
    (size ∉ p.sizes →
      GetSizes (AddSize p size) = sortInts (p.sizes ++ [size]) ∧
      (GetSizes (AddSize p size)).Sorted (· ≤ ·) ∧
      (GetSizes (AddSize p size)).Perm (size :: p.sizes) ∧
      (GetSizes (AddSize p size)).length = (GetSizes p).length + 1 ∧
      size ∈ GetSizes (AddSize p size) ∧
      ∀ x ∈ p.sizes, x ∈ GetSizes (AddSize p size)) := by
  refine ⟨?_, ?_, ?_⟩
  · intro h
    rw [AddSize_present p size h]
  · exact AddSize_present _ size ((mem_AddSize p size size).mpr (Or.inr rfl))
  · intro h
    have hperm : (sortInts (p.sizes ++ [size])).Perm (size :: p.sizes) :=
      (sortInts_perm _).trans (List.perm_append_singleton size _)
    rw [AddSize_absent p size h]
    simp only [GetSizes_eq]
    refine ⟨trivial, sortInts_sorted _, hperm, ?_, ?_, ?_⟩
    · rw [hperm.length_eq, List.length_cons]
    · exact hperm.mem_iff.mpr (List.mem_cons_self _ _)
    · intro x hx
      exact hperm.mem_iff.mpr (List.mem_cons_of_mem _ hx)

/-- Witness for C12: adding the present size 500 to the default set changes
nothing. -/
theorem AddSize_spec_witness :
    GetSizes (AddSize NewPackSizesManager 500) = GetSizes NewPackSizesManager :=
  (AddSize_spec NewPackSizesManager 500).1 (by decide)

/-- C13: after `RemoveSize`, `GetSizes` is the previous list with every occurrence
of the size deleted and all other elements kept in their relative order; if the
size was absent the list is unchanged.  `RemoveSize` has no error result. -/
theorem RemoveSize_spec (p : PackSizesManager) (size : Int) :
    GetSizes (RemoveSize p size) = p.sizes.filter (fun s => decide (s ≠ size)) ∧
    size ∉ GetSizes (RemoveSize p size) ∧
    (GetSizes (RemoveSize p size)).Sublist (GetSizes p) ∧
    (∀ x, x ≠ size → (GetSizes (RemoveSize p size)).count x = (GetSizes p).count x) ∧
    (size ∉ p.sizes → GetSizes (RemoveSize p size) = GetSizes p) := by
  simp only [GetSizes_eq, RemoveSize]
  refine ⟨filter_bne_eq _ _, ?_, List.filter_sublist _, ?_, ?_⟩
  · intro h
    exact ((mem_filter_bne _ _ _).mp h).2 rfl
  · intro x hx
    exact List.count_filter (by simpa using hx)
  · intro h
    rw [List.filter_eq_self]
    intro a ha
    have : a ≠ size := fun e => h (e ▸ ha)
    simpa using this

/-- Witness for C13: removing the absent size 999 from the default set changes
nothing. -/
theorem RemoveSize_spec_witness :
    GetSizes (RemoveSize NewPackSizesManager 999) = GetSizes NewPackSizesManager :=
  (RemoveSize_spec NewPackSizesManager 999).2.2.2.2 (by decide)

/-- The handler test case named "New size already exists" sends `250 -> 500` after
the case "Valid update" has replaced 250 by 300 on the same registry: the error
it receives is the not-found one, not the conflict. -/
theorem UpdateSize_after_valid_update :
    GetSizes (UpdateSize NewPackSizesManager 250 300).1 = [300, 500, 1000, 2000, 5000] ∧
    (UpdateSize (UpdateSize NewPackSizesManager 250 300).1 250 500).2
      = some (UpdateError.oldSizeDoesNotExist 250) := by
  decide

/-! ## The handlers -/

theorem mem_UpdateSize (p : PackSizesManager) (oldSize newSize x : Int)
    (hx : x ∈ (UpdateSize p oldSize newSize).1.sizes) : x ∈ p.sizes ∨ x = newSize := by
  rcases UpdateSize_result p oldSize newSize with ⟨_, e⟩ | ⟨_, _, e⟩ | ⟨_, _, e⟩
  · rw [e] at hx; exact Or.inl hx
  · rw [e] at hx; exact Or.inl hx
  · rw [e] at hx
    have hx' : x ∈ sortInts (p.sizes.filter (fun s => s != oldSize) ++ [newSize]) := hx
    rw [mem_sortInts, List.mem_append, List.mem_singleton, mem_filter_bne] at hx'
    rcases hx' with ⟨h1, _⟩ | h1
    · exact Or.inl h1
    · exact Or.inr h1

theorem AddPackSize_rejected (p : PackSizesManager) (size : Int) (h : size ≤ 0) :
    PackHandler.AddPackSize p (some size) =
      (p, Response.error 400 "Pack size must be a positive integer") := by
  simp only [PackHandler.AddPackSize, if_pos h]

theorem AddPackSize_accepted (p : PackSizesManager) (size : Int) (h : ¬ size ≤ 0) :
    PackHandler.AddPackSize p (some size) =
      (AddSize p size, Response.sizes 200 (GetSizes (AddSize p size))) := by
  simp only [PackHandler.AddPackSize, if_neg h]

theorem UpdatePackSize_rejected (p : PackSizesManager) (oldSize newSize : Int)
    (h : newSize ≤ 0) :
    PackHandler.UpdatePackSize p (some (oldSize, newSize)) =
      (p, Response.error 400 "New pack size must be a positive integer") := by
  simp only [PackHandler.UpdatePackSize, if_pos h]

theorem UpdatePackSize_state (p : PackSizesManager) (oldSize newSize : Int)
    (h : ¬ newSize ≤ 0) :
    (PackHandler.UpdatePackSize p (some (oldSize, newSize))).1 =
      (UpdateSize p oldSize newSize).1 := by
  simp only [PackHandler.UpdatePackSize, if_neg h]
  rcases hres : UpdateSize p oldSize newSize with ⟨q, err⟩
  cases err <;> rfl

theorem CalculatePacks_handler_state (p : PackSizesManager) (query : Option Int) :
    (PackHandler.CalculatePacks p query).1 = p := by
  unfold PackHandler.CalculatePacks
  cases query with
  | none => rfl
  | some orderQuantity =>
    by_cases h : orderQuantity ≤ 0
    · simp only [if_pos h]
    · simp only [if_neg h]
      cases PackSizer.CalculatePacks orderQuantity (GetSizes p) <;> rfl

/-- Every handler keeps all registered sizes positive. -/
theorem serve_positive (p : PackSizesManager) (r : HandlerRequest)
    (h : ∀ x ∈ p.sizes, 0 < x) : ∀ x ∈ (serve p r).1.sizes, 0 < x := by
  cases r with
  | getPackSizes => exact h
  | addPackSize body =>
    cases body with
    | none => exact h
    | some size =>
      by_cases hs : size ≤ 0
      · show ∀ x ∈ (PackHandler.AddPackSize p (some size)).1.sizes, 0 < x
        rw [AddPackSize_rejected p size hs]
        exact h
      · show ∀ x ∈ (PackHandler.AddPackSize p (some size)).1.sizes, 0 < x
        rw [AddPackSize_accepted p size hs]
        intro x hx
        rcases (mem_AddSize p size x).mp hx with h1 | h1
        · exact h x h1
        · omega
  | removePackSize param =>
    cases param with
    | none => exact h
    | some sizeInt =>
      intro x hx
      exact h x ((mem_filter_bne _ _ _).mp hx).1
  | updatePackSize body =>
    cases body with
    | none => exact h
    | some pair =>
      obtain ⟨oldSize, newSize⟩ := pair
      by_cases hs : newSize ≤ 0
      · show ∀ x ∈ (PackHandler.UpdatePackSize p (some (oldSize, newSize))).1.sizes, 0 < x
        rw [UpdatePackSize_rejected p oldSize newSize hs]
        exact h
      · show ∀ x ∈ (PackHandler.UpdatePackSize p (some (oldSize, newSize))).1.sizes, 0 < x
        rw [UpdatePackSize_state p oldSize newSize hs]
        intro x hx
        rcases mem_UpdateSize p oldSize newSize x hx with h1 | h1
        · exact h x h1
        · omega
  | calculatePacks query =>
    show ∀ x ∈ (PackHandler.CalculatePacks p query).1.sizes, 0 < x
    rw [CalculatePacks_handler_state]
    exact h

theorem serveAll_positive (requests : List HandlerRequest) :
    ∀ p : PackSizesManager, (∀ x ∈ p.sizes, 0 < x) →
      ∀ x ∈ (serveAll p requests).sizes, 0 < x := by
  induction requests with
  | nil => intro p h; exact h
  | cons r rest ih =>
    intro p h
    exact ih (serve p r).1 (serve_positive p r h)

/-- C14, evaluated on the code: five `RemovePackSize` requests empty the registry
built by `NewPackSizesManager`, and the next calculate request with quantity 1
calls `CalculatePacks` with the empty list and panics at `packSizes[0]`. -/
theorem calculate_on_emptied_registry_panics :
    GetSizes (serveAll NewPackSizesManager
      [HandlerRequest.removePackSize (some 250), HandlerRequest.removePackSize (some 500),
       HandlerRequest.removePackSize (some 1000), HandlerRequest.removePackSize (some 2000),
       HandlerRequest.removePackSize (some 5000)]) = [] ∧
    CalculatePacks 1 [] = none ∧
    (serve (serveAll NewPackSizesManager
      [HandlerRequest.removePackSize (some 250), HandlerRequest.removePackSize (some 500),
       HandlerRequest.removePackSize (some 1000), HandlerRequest.removePackSize (some 2000),
       HandlerRequest.removePackSize (some 5000)])
      (HandlerRequest.calculatePacks (some 1))).2 = Response.panicked := by
  decide

/-- C15: in every registry state reached from the default set by any sequence of
handler requests, every element of `GetSizes` is positive; an add request with
`size <= 0` and an update request with `newSize <= 0` are answered with status
400 and leave the registry unchanged. -/
theorem handlers_keep_sizes_positive :
    (∀ requests : List HandlerRequest,
      ∀ x ∈ GetSizes (serveAll NewPackSizesManager requests), 0 < x) ∧
    (∀ (p : PackSizesManager) (size : Int), size ≤ 0 →
      (PackHandler.AddPackSize p (some size)).1 = p ∧
      (PackHandler.AddPackSize p (some size)).2.status = some 400) ∧
    (∀ (p : PackSizesManager) (oldSize newSize : Int), newSize ≤ 0 →
      (PackHandler.UpdatePackSize p (some (oldSize, newSize))).1 = p ∧
      (PackHandler.UpdatePackSize p (some (oldSize, newSize))).2.status = some 400) := by
  refine ⟨?_, ?_, ?_⟩
  · intro requests x hx
    rw [GetSizes_eq] at hx
    exact serveAll_positive requests NewPackSizesManager (by decide) x hx
  · intro p size h
    rw [AddPackSize_rejected p size h]
    exact ⟨rfl, rfl⟩
  · intro p oldSize newSize h
    rw [UpdatePackSize_rejected p oldSize newSize h]
    exact ⟨rfl, rfl⟩

/-- Witness for C15: adding `-100` to the default set is answered with 400 and
changes nothing. -/
theorem handlers_keep_sizes_positive_witness :
    (PackHandler.AddPackSize NewPackSizesManager (some (-100))).1 = NewPackSizesManager ∧
    (PackHandler.AddPackSize NewPackSizesManager (some (-100))).2.status = some 400 :=
  handlers_keep_sizes_positive.2.1 NewPackSizesManager (-100) (by decide)

/-! ## Further facts about the optimizer -/

theorem mem_quantities (lo hi q : Int) : q ∈ quantities lo hi ↔ lo ≤ q ∧ q ≤ hi := by
  unfold quantities
  rw [List.mem_map]
  constructor
  · rintro ⟨k, hk, rfl⟩
    rw [List.mem_range] at hk
    omega
  · intro h
    refine ⟨(q - lo).toNat, ?_, ?_⟩
    · rw [List.mem_range]; omega
    · omega

theorem comboItems_cons (q : Int) (qs : List Int) (c : Nat) (cs : List Nat) :
    comboItems (q :: qs) (c :: cs) = q * c + comboItems qs cs := by
  simp [comboItems]

theorem comboPacks_cons (q : Int) (qs : List Int) (c : Nat) (cs : List Nat) :
    comboPacks (q :: qs) (c :: cs) = c + comboPacks qs cs := by
  simp [comboPacks]

theorem combo_zero (ps : List Int) :
    (List.replicate ps.length 0).length = ps.length ∧
    comboItems ps (List.replicate ps.length 0) = 0 ∧
    comboPacks ps (List.replicate ps.length 0) = 0 := by
  induction ps with
  | nil => simp [comboItems, comboPacks]
  | cons q qs ih =>
    refine ⟨by simp, ?_, ?_⟩
    · rw [List.length_cons, List.replicate_succ, comboItems_cons, ih.2.1]; simp
    · rw [List.length_cons, List.replicate_succ, comboPacks_cons, ih.2.2]; simp

/-- One more pack of an available size, in terms of counts. -/
theorem combo_bump (ps : List Int) (p : Int) :
    ∀ counts : List Nat, counts.length = ps.length → p ∈ ps →
      ∃ counts' : List Nat, counts'.length = ps.length ∧
        comboItems ps counts' = comboItems ps counts + p ∧
        comboPacks ps counts' = comboPacks ps counts + 1 := by
  induction ps with
  | nil => intro counts _ hp; exact absurd hp (List.not_mem_nil p)
  | cons q qs ih =>
    intro counts hlen hp
    cases counts with
    | nil => simp at hlen
    | cons c cs =>
      have hlen' : cs.length = qs.length := by simpa using hlen
      by_cases hq : p = q
      · refine ⟨(c + 1) :: cs, by simpa using hlen', ?_, ?_⟩
        · rw [comboItems_cons, comboItems_cons, hq]; push_cast; ring
        · rw [comboPacks_cons, comboPacks_cons]; push_cast; ring
      · have hp' : p ∈ qs := by
          rcases List.mem_cons.mp hp with h1 | h1
          · exact absurd h1 hq
          · exact h1
        obtain ⟨cs', h1, h2, h3⟩ := ih cs hlen' hp'
        refine ⟨c :: cs', by simpa using h1, ?_, ?_⟩
        · rw [comboItems_cons, comboItems_cons, h2]; ring
        · rw [comboPacks_cons, comboPacks_cons, h3]; ring

/-- Every combination of packs is an assignment of counts to the pack sizes. -/
theorem counts_of_Reach (ps : List Int) (t n : Int) (h : Reach ps t n) :
    ∃ counts : List Nat, counts.length = ps.length ∧
      comboItems ps counts = t ∧ comboPacks ps counts = n := by
  obtain ⟨l, hl, hs, hn⟩ := h
  induction l generalizing t n with
  | nil =>
    obtain ⟨h1, h2, h3⟩ := combo_zero ps
    refine ⟨_, h1, ?_, ?_⟩
    · rw [h2]; simpa using hs
    · rw [h3]; simpa using hn
  | cons x rest ih =>
    obtain ⟨counts, h1, h2, h3⟩ := ih rest.sum rest.length
      (fun y hy => hl y (List.mem_cons_of_mem _ hy)) rfl rfl
    obtain ⟨counts', g1, g2, g3⟩ := combo_bump ps x counts h1 (hl x (List.mem_cons_self _ _))
    refine ⟨counts', g1, ?_, ?_⟩
    · rw [g2, h2]
      simp only [List.sum_cons] at hs
      omega
    · rw [g3, h3]
      simp only [List.length_cons] at hn
      push_cast at hn
      omega

/-- A total is a sum of packs exactly when some assignment of counts has it. -/
theorem Reach_iff_counts (ps : List Int) (t : Int) :
    (∃ n, Reach ps t n) ↔ ∃ counts : List Nat, comboItems ps counts = t := by
  constructor
  · rintro ⟨n, hn⟩
    obtain ⟨counts, _, h2, _⟩ := counts_of_Reach ps t n hn
    exact ⟨counts, h2⟩
  · rintro ⟨counts, hc⟩
    exact ⟨_, hc ▸ Reach_of_counts ps counts⟩

/-- The table after the fill loop, as `CalculatePacks` builds it. -/
theorem filled_table (orderQuantity : Int) (packSizes : List Int) (lg : Int) (m : Nat)
    (hpos : ∀ p ∈ packSizes, 0 < p) (hm : (m : Int) = orderQuantity + lg)
    (hfit : (m : Int) + 1 ≤ maxTableLen) :
    ∃ dp0 dp1, (initTable (orderQuantity + lg)).bind setBase = some dp0 ∧
      fillTable (sortInts packSizes) (orderQuantity + lg) dp0 = some dp1 ∧
      Filled packSizes m (m + 1) dp1 := by
  obtain ⟨dp1, hfill, hF⟩ := fillTable_spec packSizes (sortInts packSizes) m _ hpos
    (mem_sortInts packSizes) hfit (init_Filled packSizes m)
  have hinit := init_spec m hfit
  rw [hm] at hinit hfill
  exact ⟨_, dp1, hinit, hfill, hF⟩

theorem index_isSome (dp : List solution) (i : Int) (h0 : 0 ≤ i) (hlt : i < dp.length) :
    (index dp i).isSome = true := by
  unfold index
  rw [if_neg (by omega)]
  have : i.toNat < dp.length := by omega
  rw [List.getElem?_eq_getElem this]
  rfl

theorem mapGet_of_not_mem_keys (m : PackMap) (k : Int) (h : k ∉ m.map Prod.fst) :
    mapGet m k = 0 := by
  induction m with
  | nil => rfl
  | cons e rest ih =>
    obtain ⟨k', v'⟩ := e
    simp only [List.map_cons, List.mem_cons, not_or] at h
    have hk : ¬ k' = k := fun e => h.1 e.symm
    simp only [mapGet, hk, if_false]
    exact ih h.2

theorem mapGet_of_mem (m : PackMap) (k v : Int) (hnd : (m.map Prod.fst).Nodup)
    (h : (k, v) ∈ m) : mapGet m k = v := by
  induction m with
  | nil => exact absurd h (List.not_mem_nil _)
  | cons e rest ih =>
    obtain ⟨k', v'⟩ := e
    simp only [List.map_cons, List.nodup_cons] at hnd
    rcases List.mem_cons.mp h with h1 | h1
    · have e1 : k = k' := (Prod.mk.inj h1).1
      have e2 : v = v' := (Prod.mk.inj h1).2
      simp only [mapGet, e1, e2, if_true]
    · have hk : ¬ k' = k := by
        intro e
        exact hnd.1 (e ▸ List.mem_map_of_mem Prod.fst h1)
      simp only [mapGet, hk, if_false]
      exact ih hnd.2 h1

theorem mem_of_mapGet_ne_zero (m : PackMap) (k : Int) (h : mapGet m k ≠ 0) :
    (k, mapGet m k) ∈ m := by
  induction m with
  | nil => exact absurd rfl h
  | cons e rest ih =>
    obtain ⟨k', v'⟩ := e
    by_cases hk : k' = k
    · simp only [mapGet, hk, if_true]
      exact List.mem_cons_self _ _
    · simp only [mapGet, hk, if_false] at h ⊢
      exact List.mem_cons_of_mem _ (ih h)

/-- A map with at most the three keys `a`, `b`, `c` is determined by their counts. -/
theorem sums_three_keys (a b c : Int) (hab : a ≠ b) (hac : a ≠ c) (hbc : b ≠ c)
    (m : PackMap) (hnd : (m.map Prod.fst).Nodup)
    (hkeys : ∀ e ∈ m, e.1 = a ∨ e.1 = b ∨ e.1 = c) :
    sumItems m = a * mapGet m a + b * mapGet m b + c * mapGet m c ∧
    sumCounts m = mapGet m a + mapGet m b + mapGet m c := by
  induction m with
  | nil => simp [sumItems, sumCounts, mapGet]
  | cons e rest ih =>
    obtain ⟨k, v⟩ := e
    simp only [List.map_cons, List.nodup_cons] at hnd
    obtain ⟨ih1, ih2⟩ := ih hnd.2 (fun e he => hkeys e (List.mem_cons_of_mem _ he))
    have hz := mapGet_of_not_mem_keys rest k hnd.1
    have hI : sumItems ((k, v) :: rest) = k * v + sumItems rest := by simp [sumItems]
    have hC : sumCounts ((k, v) :: rest) = v + sumCounts rest := by simp [sumCounts]
    rw [hI, hC, ih1, ih2]
    rcases hkeys (k, v) (List.mem_cons_self _ _) with h | h | h
    · have h' : k = a := h
      subst h'
      simp only [mapGet, if_true, if_neg hab, if_neg hac, hz]
      constructor <;> ring
    · have h' : k = b := h
      subst h'
      simp only [mapGet, if_true, if_neg (Ne.symm hab), if_neg hbc, hz]
      constructor <;> ring
    · have h' : k = c := h
      subst h'
      simp only [mapGet, if_true, if_neg (Ne.symm hac), if_neg (Ne.symm hbc), hz]
      constructor <;> ring

/-! ## Further optimizer claims -/

/-- One iteration of the inner loop on a table of the allocated length does not
panic and keeps the length: both slice reads are in range. -/
theorem tryPack_total (quantity maxPossibleOrder : Int) (dp : List solution) (packSize : Int)
    (hlen : (dp.length : Int) = maxPossibleOrder + 1) (hq1 : 1 ≤ quantity)
    (hq : quantity ≤ maxPossibleOrder) (hp0 : 0 < packSize)
    (hfit : maxPossibleOrder + 1 ≤ maxTableLen) :
    (∃ dp', tryPack quantity dp packSize = some dp' ∧ dp'.length = dp.length) ∧
    (¬ packSize > quantity →
      wrapInt (quantity - packSize) = quantity - packSize ∧
      0 ≤ quantity - packSize ∧ quantity - packSize ≤ maxPossibleOrder ∧
      (index dp (wrapInt (quantity - packSize))).isSome = true ∧
      (index dp quantity).isSome = true) := by
  have hreads : ¬ packSize > quantity →
      wrapInt (quantity - packSize) = quantity - packSize ∧
      0 ≤ quantity - packSize ∧ quantity - packSize ≤ maxPossibleOrder ∧
      (index dp (wrapInt (quantity - packSize))).isSome = true ∧
      (index dp quantity).isSome = true := by
    intro hgt
    have e1 : wrapInt (quantity - packSize) = quantity - packSize :=
      wrapInt_small _ (by omega) (by omega)
    refine ⟨e1, by omega, by omega, ?_, index_isSome dp _ (by omega) (by omega)⟩
    rw [e1]
    exact index_isSome dp _ (by omega) (by omega)
  refine ⟨?_, hreads⟩
  by_cases hgt : packSize > quantity
  · exact ⟨dp, by simp only [tryPack, if_pos hgt], rfl⟩
  · obtain ⟨_, _, _, h1, h2⟩ := hreads hgt
    obtain ⟨prev, hprev⟩ := Option.isSome_iff_exists.mp h1
    obtain ⟨cur, hcur⟩ := Option.isSome_iff_exists.mp h2
    simp only [tryPack, if_neg hgt, hprev, hcur]
    split_ifs
    · exact ⟨_, rfl, by simp⟩
    · exact ⟨dp, rfl, rfl⟩

/-- C16 as stated fails: for the order 1 and the sizes 1 and `2^63 - 1`, both in
the documented domain, `orderQuantity + packSizes[len-1]` wraps, `make` panics
and `CalculatePacks` returns nothing. -/
theorem CalculatePacks_total_fails :
    (0 : Int) ≤ 1 ∧ ([1, 9223372036854775807] : List Int) ≠ [] ∧
    (∀ p ∈ ([1, 9223372036854775807] : List Int), 0 < p) ∧
    ¬ ∃ r, CalculatePacks 1 [1, 9223372036854775807] = some r := by
  refine ⟨by decide, by decide, by decide, ?_⟩
  rintro ⟨r, hr⟩
  rw [CalculatePacks_wraps_size] at hr
  exact absurd hr (by simp)

/-- C16, amended: totality where the table can be allocated. For every order
quantity `>= 0` and every non-empty list of positive pack sizes such that,
unless the order is below every size, `orderQuantity + p + 1 <= 2^44` for every
size `p`, `CalculatePacks` returns a result (no panic): `packSizes[0]` and
`packSizes[len-1]` exist; and when the table is built, `orderQuantity +
packSizes[len-1]` does not wrap, `make` and the fill loop succeed, and for every
quantity of the fill loop, every pack size and every table of the allocated
length the loop body does not panic and keeps that length, its reads
`dp[quantity-packSize]` and `dp[quantity]` lying in
`[0, orderQuantity + maxPackSize]`. -/
theorem CalculatePacks_total (orderQuantity : Int) (packSizes : List Int)
    (h0 : 0 ≤ orderQuantity) (hne : packSizes ≠ []) (hpos : ∀ p ∈ packSizes, 0 < p)
    (hfit : (∃ p ∈ packSizes, p ≤ orderQuantity) → TableFits orderQuantity packSizes) :
    ∃ r sm lg, CalculatePacks orderQuantity packSizes = some r ∧
      (sortInts packSizes).head? = some sm ∧ (sortInts packSizes).getLast? = some lg ∧
      (sm ≤ orderQuantity →
        wrapInt (orderQuantity + lg) = orderQuantity + lg ∧
        ∃ dp0 dp1, (initTable (orderQuantity + lg)).bind setBase = some dp0 ∧
          (dp0.length : Int) = orderQuantity + lg + 1 ∧
          fillTable (sortInts packSizes) (orderQuantity + lg) dp0 = some dp1 ∧
          ∀ quantity ∈ quantities 1 (orderQuantity + lg), ∀ packSize ∈ sortInts packSizes,
            ∀ dp : List solution, dp.length = dp0.length →
              (∃ dp', tryPack quantity dp packSize = some dp' ∧ dp'.length = dp.length) ∧
              (¬ packSize > quantity →
                wrapInt (quantity - packSize) = quantity - packSize ∧
                0 ≤ quantity - packSize ∧ quantity - packSize ≤ orderQuantity + lg ∧
                (index dp (wrapInt (quantity - packSize))).isSome = true ∧
                (index dp quantity).isSome = true)) := by
  obtain ⟨r, hr, _⟩ := CalculatePacks_spec orderQuantity packSizes h0 hne hpos hfit
  obtain ⟨sm, rest, hsort, hsm, _⟩ := sortInts_head packSizes hne
  obtain ⟨lg, hlast, hlg⟩ := sortInts_last packSizes hne
  refine ⟨r, sm, lg, hr, by rw [hsort]; rfl, hlast, ?_⟩
  intro hge
  have hlg0 := hpos lg hlg
  have hfits := hfit ⟨sm, hsm, hge⟩ lg hlg
  obtain ⟨m, hm⟩ : ∃ m : Nat, (m : Int) = orderQuantity + lg :=
    ⟨(orderQuantity + lg).toNat, Int.toNat_of_nonneg (by omega)⟩
  have hfitm : (m : Int) + 1 ≤ maxTableLen := by omega
  obtain ⟨dp0, dp1, hinit, hfill, _⟩ := filled_table orderQuantity packSizes lg m hpos hm hfitm
  have hinit' := hinit
  rw [← hm, init_spec m hfitm] at hinit'
  have hdp0 : dp0 = ⟨0, []⟩ :: List.replicate m ⟨(m : Int) + 1, []⟩ :=
    (Option.some.inj hinit').symm
  have hlen0 : (dp0.length : Int) = orderQuantity + lg + 1 := by
    rw [hdp0, List.length_cons, List.length_replicate]
    push_cast
    omega
  refine ⟨wrapInt_small _ (by omega) (by omega), dp0, dp1, hinit, hlen0, hfill, ?_⟩
  intro quantity hq packSize hp dp hlen
  rw [mem_quantities] at hq
  have hp0 := hpos packSize ((mem_sortInts _ _).mp hp)
  exact tryPack_total quantity (orderQuantity + lg) dp packSize (by rw [hlen]; exact hlen0)
    hq.1 hq.2 hp0 (by omega)

/-- Witness for C16: order 12 with sizes 5, 3 and 7. -/
theorem CalculatePacks_total_witness :
    ∃ r sm lg, CalculatePacks 12 [5, 3, 7] = some r ∧
      (sortInts [5, 3, 7]).head? = some sm ∧ (sortInts [5, 3, 7]).getLast? = some lg ∧
      (sm ≤ 12 →
        wrapInt (12 + lg) = 12 + lg ∧
        ∃ dp0 dp1, (initTable (12 + lg)).bind setBase = some dp0 ∧
          (dp0.length : Int) = 12 + lg + 1 ∧
          fillTable (sortInts [5, 3, 7]) (12 + lg) dp0 = some dp1 ∧
          ∀ quantity ∈ quantities 1 (12 + lg), ∀ packSize ∈ sortInts [5, 3, 7],
            ∀ dp : List solution, dp.length = dp0.length →
              (∃ dp', tryPack quantity dp packSize = some dp' ∧ dp'.length = dp.length) ∧
              (¬ packSize > quantity →
                wrapInt (quantity - packSize) = quantity - packSize ∧
                0 ≤ quantity - packSize ∧ quantity - packSize ≤ 12 + lg ∧
                (index dp (wrapInt (quantity - packSize))).isSome = true ∧
                (index dp quantity).isSome = true)) :=
  CalculatePacks_total 12 [5, 3, 7] (by decide) (by decide) (by decide) (fun _ => by decide)

/-- C18 as stated fails: for the order 1 and the sizes 1 and `2^63 - 1` (general
case, positive sizes) `maxPossibleOrder` is the wrapped sum, `make` panics and
there is no table to characterise. -/
theorem fillTable_characterisation_fails :
    (∀ p ∈ ([1, 9223372036854775807] : List Int), 0 < p) ∧
    (∃ p ∈ ([1, 9223372036854775807] : List Int), p ≤ 1) ∧
    (sortInts [1, 9223372036854775807]).getLast? = some 9223372036854775807 ∧
    (initTable (wrapInt (1 + 9223372036854775807))).bind setBase = none := by
  decide

/-- C18, amended: the table after the fill loop. In the general case (positive
sizes, the order at least the smallest size) with `lg` the largest size, when
the table can be allocated (`orderQuantity + p + 1 <= 2^44` for every size `p`)
the sum `orderQuantity + lg` does not wrap, the table is built without panic
and for every total `t` in `[0, orderQuantity + lg]` the entry
`dp[t].totalItems` is `t` when `t` is a sum of non-negative multiples of the
pack sizes and the sentinel `orderQuantity + lg + 1` otherwise. -/
theorem fillTable_characterisation (orderQuantity : Int) (packSizes : List Int) (lg : Int)
    (hpos : ∀ p ∈ packSizes, 0 < p) (hge : ∃ p ∈ packSizes, p ≤ orderQuantity)
    (hlast : (sortInts packSizes).getLast? = some lg)
    (hfit : TableFits orderQuantity packSizes) :
    wrapInt (orderQuantity + lg) = orderQuantity + lg ∧
    ∃ dp0 dp1, (initTable (orderQuantity + lg)).bind setBase = some dp0 ∧
      fillTable (sortInts packSizes) (orderQuantity + lg) dp0 = some dp1 ∧
      ∀ t, 0 ≤ t → t ≤ orderQuantity + lg →
        ∃ s, index dp1 t = some s ∧
          ((∃ counts : List Nat, comboItems packSizes counts = t) → s.totalItems = t) ∧
          ((¬ ∃ counts : List Nat, comboItems packSizes counts = t) →
            s.totalItems = orderQuantity + lg + 1) := by
  obtain ⟨p, hp, hple⟩ := hge
  have hp0 := hpos p hp
  have hlg : lg ∈ packSizes :=
    (mem_sortInts _ _).mp (List.mem_of_getLast?_eq_some hlast)
  have hlg0 := hpos lg hlg
  obtain ⟨m, hm⟩ : ∃ m : Nat, (m : Int) = orderQuantity + lg :=
    ⟨(orderQuantity + lg).toNat, Int.toNat_of_nonneg (by omega)⟩
  have hfitm : (m : Int) + 1 ≤ maxTableLen := by
    have := hfit lg hlg
    omega
  obtain ⟨dp0, dp1, hinit, hfill, hF⟩ :=
    filled_table orderQuantity packSizes lg m hpos hm hfitm
  refine ⟨wrapInt_small _ (by omega) (by omega), dp0, dp1, hinit, hfill, ?_⟩
  intro t ht0 htm
  obtain ⟨tn, htn⟩ : ∃ tn : Nat, (tn : Int) = t := ⟨t.toNat, Int.toNat_of_nonneg ht0⟩
  have hlt : tn < dp1.length := by rw [hF.1]; omega
  obtain ⟨s, hs⟩ : ∃ s, dp1[tn]? = some s := ⟨dp1[tn], List.getElem?_eq_getElem hlt⟩
  have hfin : Final packSizes m tn s := (hF.2 tn s hs).1 (by omega)
  refine ⟨s, by rw [← htn, index_natCast]; exact hs, ?_, ?_⟩
  · intro hc
    rcases hfin with ⟨_, hno⟩ | ⟨hr, _⟩
    · obtain ⟨n, hn⟩ := (Reach_iff_counts packSizes t).mpr hc
      rw [← htn] at hn
      exact absurd hn (hno n)
    · rw [← htn]; exact hr.1
  · intro hc
    rcases hfin with ⟨hu, _⟩ | ⟨hr, _⟩
    · rw [hu, ← hm]
    · exfalso
      apply hc
      apply (Reach_iff_counts packSizes t).mp
      rw [← htn]
      exact ⟨_, hr.2.2.2⟩

/-- Witness for C18: order 6 with sizes 4, 3 and 2, largest size 4. -/
theorem fillTable_characterisation_witness :
    wrapInt (6 + 4) = 6 + 4 ∧
    ∃ dp0 dp1, (initTable (6 + 4)).bind setBase = some dp0 ∧
      fillTable (sortInts [4, 3, 2]) (6 + 4) dp0 = some dp1 ∧
      ∀ t, 0 ≤ t → t ≤ 6 + 4 →
        ∃ s, index dp1 t = some s ∧
          ((∃ counts : List Nat, comboItems [4, 3, 2] counts = t) → s.totalItems = t) ∧
          ((¬ ∃ counts : List Nat, comboItems [4, 3, 2] counts = t) →
            s.totalItems = 6 + 4 + 1) :=
  fillTable_characterisation 6 [4, 3, 2] 4 (by decide) ⟨4, by decide, by decide⟩ (by decide)
    (by decide)

/-- C20 as stated fails: for the order `2^63 - 1` and the single size 1 no
`TotalItems` is returned, because `orderQuantity + 1` wraps and `make` panics. -/
theorem CalculatePacks_overshoot_fails :
    (1 : Int) ≤ 9223372036854775807 ∧ ([1] : List Int) ≠ [] ∧
    (∀ p ∈ ([1] : List Int), 0 < p) ∧
    ¬ ∃ r, CalculatePacks 9223372036854775807 [1] = some r ∧
      ∀ p ∈ ([1] : List Int), r.TotalItems < 9223372036854775807 + p := by
  refine ⟨by decide, by decide, by decide, ?_⟩
  rintro ⟨r, hr, _⟩
  rw [CalculatePacks_wraps_order] at hr
  exact absurd hr (by simp)

/-- C20, amended: the overshoot is smaller than the smallest pack. For every
order quantity `>= 1` and every non-empty list of positive pack sizes whose
table can be allocated (unless the order is below every size,
`orderQuantity + p + 1 <= 2^44` for every size `p`), `CalculatePacks` returns a
result whose `TotalItems` is below `orderQuantity + p` for every available size
`p`, in particular for the smallest one. -/
theorem CalculatePacks_overshoot (orderQuantity : Int) (packSizes : List Int)
    (h1 : 1 ≤ orderQuantity) (hne : packSizes ≠ []) (hpos : ∀ p ∈ packSizes, 0 < p)
    (hfit : (∃ p ∈ packSizes, p ≤ orderQuantity) → TableFits orderQuantity packSizes) :
    ∃ r, CalculatePacks orderQuantity packSizes = some r ∧
      ∀ p ∈ packSizes, r.TotalItems < orderQuantity + p := by
  obtain ⟨r, hr, _, _, _, _, _, hleast, _⟩ :=
    CalculatePacks_spec orderQuantity packSizes (by omega) hne hpos hfit
  refine ⟨r, hr, ?_⟩
  intro p hp
  obtain ⟨t, n, ht1, ht2, ht3⟩ :=
    exists_reach_window packSizes orderQuantity p hp (hpos p hp) (by omega)
  have := hleast t n ht1 ht3
  omega

/-- Witness for C20: order 251 with the default sizes. -/
theorem CalculatePacks_overshoot_witness :
    ∃ r, CalculatePacks 251 [250, 500, 1000, 2000, 5000] = some r ∧
      ∀ p ∈ ([250, 500, 1000, 2000, 5000] : List Int), r.TotalItems < 251 + p :=
  CalculatePacks_overshoot 251 [250, 500, 1000, 2000, 5000] (by decide) (by decide)
    (by decide) (fun _ => by decide)

theorem reference_cover : Reach [23, 31, 53] 500000 9438 := by
  have h := Reach_of_counts [23, 31, 53] [2, 7, 9429]
  have e1 : comboItems [23, 31, 53] [2, 7, 9429] = 500000 := by
    simp [comboItems]
  have e2 : comboPacks [23, 31, 53] [2, 7, 9429] = 9438 := by
    simp [comboPacks]
  rw [e1, e2] at h
  exact h

/-- The arithmetic behind the reference case: 500000 has exactly one cover by
23, 31 and 53 with at most 9438 packs. -/
theorem cover_unique (x y z : Int) (hx : 0 ≤ x) (hy : 0 ≤ y) (_hz : 0 ≤ z)
    (h : 23 * x + 31 * y + 53 * z = 500000) (hn : x + y + z ≤ 9438) :
    x = 2 ∧ y = 7 ∧ z = 9429 := by
  have hxb : x ≤ 7 := by omega
  have hyb : y ≤ 9 := by omega
  interval_cases x <;> interval_cases y <;> omega

/-- C17: the reference case. `CalculatePacks 500000 [23, 31, 53]` returns
`TotalItems = 500000` and the mapping `{23: 2, 31: 7, 53: 9429}` (9438 packs),
and that is the only exact cover of 500000 with as few as 9438 packs. -/
theorem CalculatePacks_reference_case :
    ∃ r, CalculatePacks 500000 [23, 31, 53] = some r ∧
      r.OrderQuantity = 500000 ∧ r.TotalItems = 500000 ∧
      r.Packs.Perm [(23, 2), (31, 7), (53, 9429)] ∧
      mapGet r.Packs 23 = 2 ∧ mapGet r.Packs 31 = 7 ∧ mapGet r.Packs 53 = 9429 ∧
      sumCounts r.Packs = 9438 ∧
      ∀ a b c : Nat, comboItems [23, 31, 53] [a, b, c] = 500000 →
        9438 ≤ comboPacks [23, 31, 53] [a, b, c] ∧
        (comboPacks [23, 31, 53] [a, b, c] = 9438 → a = 2 ∧ b = 7 ∧ c = 9429) := by
  obtain ⟨r, hr, hq, hge, hOK, hsum, _, hleast, hminp⟩ :=
    CalculatePacks_spec 500000 [23, 31, 53] (by decide) (by decide) (by decide)
      (fun _ => by decide)
  have hT : r.TotalItems = 500000 := by
    have := hleast 500000 9438 (le_refl _) reference_cover
    omega
  have hcount : sumCounts r.Packs ≤ 9438 := hminp 9438 (hT ▸ reference_cover)
  have hkeys : ∀ e ∈ r.Packs, e.1 = 23 ∨ e.1 = 31 ∨ e.1 = 53 := by
    intro e he
    have := (hOK.2 e he).1
    simpa using this
  obtain ⟨s1, s2⟩ := sums_three_keys 23 31 53 (by decide) (by decide) (by decide)
    r.Packs hOK.1 hkeys
  have x0 := mapGet_nonneg _ r.Packs 23 hOK
  have y0 := mapGet_nonneg _ r.Packs 31 hOK
  have z0 := mapGet_nonneg _ r.Packs 53 hOK
  rw [hT] at hsum
  obtain ⟨hx, hy, hz⟩ := cover_unique _ _ _ x0 y0 z0 (by omega) (by omega)
  refine ⟨r, hr, hq, hT, ?_, hx, hy, hz, by omega, ?_⟩
  · rw [List.perm_ext_iff_of_nodup (List.Nodup.of_map _ hOK.1) (by decide)]
    intro e
    obtain ⟨k, v⟩ := e
    constructor
    · intro he
      have hv := mapGet_of_mem r.Packs k v hOK.1 he
      rcases hkeys (k, v) he with h | h | h
      · have h' : k = 23 := h
        subst h'
        rw [hx] at hv
        subst hv
        simp
      · have h' : k = 31 := h
        subst h'
        rw [hy] at hv
        subst hv
        simp
      · have h' : k = 53 := h
        subst h'
        rw [hz] at hv
        subst hv
        simp
    · intro he
      simp only [List.mem_cons, List.mem_singleton, Prod.mk.injEq, List.mem_nil_iff,
        or_false] at he
      rcases he with ⟨h1, h2⟩ | ⟨h1, h2⟩ | ⟨h1, h2⟩
      · subst h1 h2
        have := mem_of_mapGet_ne_zero r.Packs 23 (by omega)
        rw [hx] at this
        exact this
      · subst h1 h2
        have := mem_of_mapGet_ne_zero r.Packs 31 (by omega)
        rw [hy] at this
        exact this
      · subst h1 h2
        have := mem_of_mapGet_ne_zero r.Packs 53 (by omega)
        rw [hz] at this
        exact this
  · intro a b c h
    simp only [comboItems, comboPacks, List.zip_cons_cons, List.zip_nil_right, List.map_cons,
      List.map_nil, List.sum_cons, List.sum_nil] at h ⊢
    constructor
    · by_contra hcon
      have := cover_unique a b c (by omega) (by omega) (by omega) (by omega) (by omega)
      omega
    · intro hn
      have := cover_unique a b c (by omega) (by omega) (by omega) (by omega) (by omega)
      omega

/-- C19 as stated fails: called with the unsorted slice `[1000, 250, 500]`,
`CalculatePacks` returns and leaves the caller's slice as `[250, 500, 1000]`. -/
theorem CalculatePacks_reorders_argument :
    (CalculatePacksEffect 100 [1000, 250, 500]).2 ≠ none ∧
    (CalculatePacksEffect 100 [1000, 250, 500]).1 = [250, 500, 1000] ∧
    (CalculatePacksEffect 100 [1000, 250, 500]).1 ≠ [1000, 250, 500] := by
  decide

/-- C19, amended: after `CalculatePacks` the caller's slice holds the same
elements (with multiplicity) in ascending order; it is element for element what
was passed in exactly when that was already ascending. -/
theorem CalculatePacks_argument_effect (orderQuantity : Int) (packSizes : List Int) :
    (CalculatePacksEffect orderQuantity packSizes).1.Perm packSizes ∧
    (CalculatePacksEffect orderQuantity packSizes).1.Sorted (· ≤ ·) ∧
    ((CalculatePacksEffect orderQuantity packSizes).1 = packSizes ↔
      packSizes.Sorted (· ≤ ·)) := by
  refine ⟨sortInts_perm packSizes, sortInts_sorted packSizes, ?_⟩
  constructor
  · intro h
    have := sortInts_sorted packSizes
    have e : sortInts packSizes = packSizes := h
    rw [e] at this
    exact this
  · intro h
    exact List.Sorted.insertionSort_eq h

/-! ## The tie-break among pack sizes -/

theorem mapGet_mapSet_self (m : PackMap) (k v : Int) : mapGet (mapSet m k v) k = v := by
  induction m with
  | nil => simp [mapSet, mapGet]
  | cons e rest ih =>
    obtain ⟨k', v'⟩ := e
    by_cases h : k' = k
    · simp only [mapSet, h, if_true, mapGet]
    · simp only [mapSet, h, if_false, mapGet]
      exact ih

/-- Trying a size that is not smaller than the tried ones and leaving the entry
as it is keeps the tie-break fact. -/
theorem TieMid_keep (ps : List Int) (m : Nat) (t : Int) (tried : List Int) (s : solution)
    (p : Int) (hsorted : ∀ p' ∈ tried, p' ≤ p) (h : TieMid ps m t tried s) :
    TieMid ps m t (p :: tried) s := by
  rcases h with hu | ⟨p0, hp0, h1, h2, h3⟩
  · exact Or.inl hu
  · refine Or.inr ⟨p0, List.mem_cons_of_mem _ hp0, h1, h2, ?_⟩
    intro p' hp' hlt
    rcases List.mem_cons.mp hp' with e | e
    · have := hsorted p0 hp0
      omega
    · exact h3 p' e hlt

/-- One iteration of the inner loop keeps the tie-break facts, the sizes being
tried in ascending order. -/
theorem tryPack_tie (ps : List Int) (m q : Nat) (tried : List Int) (dp dp' : List solution)
    (p : Int) (hpos : ∀ x ∈ ps, 0 < x) (hp : p ∈ ps) (hq : q ≤ m)
    (hfit : (m : Int) + 1 ≤ maxTableLen) (hsorted : ∀ p' ∈ tried, p' ≤ p)
    (hF : Filling ps m q tried dp) (hT : TieFilling ps m q tried dp)
    (hres : tryPack q dp p = some dp') :
    TieFilling ps m q (p :: tried) dp' := by
  obtain ⟨hlen, hall⟩ := hF
  obtain ⟨hlow, hrow⟩ := hT
  have hp0 := hpos p hp
  have hqlt : q < dp.length := by omega
  obtain ⟨cur, hcur⟩ : ∃ s, dp[q]? = some s := ⟨dp[q], List.getElem?_eq_getElem hqlt⟩
  have hcurMid : Mid ps m q tried cur := (hall q cur hcur).2.1 rfl
  have hkeep : TieFilling ps m q (p :: tried) dp :=
    ⟨hlow, fun s hs => TieMid_keep ps m q tried s p hsorted (hrow s hs)⟩
  by_cases hgt : p > (q : Int)
  · simp only [tryPack, if_pos hgt, Option.some.injEq] at hres
    rw [← hres]
    exact hkeep
  · have hle : p ≤ (q : Int) := by omega
    obtain ⟨j, hj⟩ : ∃ j : Nat, (j : Int) = q - p :=
      ⟨((q : Int) - p).toNat, Int.toNat_of_nonneg (by omega)⟩
    have hjq : j < q := by omega
    have hjlt : j < dp.length := by omega
    obtain ⟨prev, hprev⟩ : ∃ s, dp[j]? = some s := ⟨dp[j], List.getElem?_eq_getElem hjlt⟩
    have hprevFinal : Final ps m j prev := (hall j prev hprev).1 hjq
    have hidx1 : index dp ((q : Int) - p) = some prev := by
      rw [← hj, index_natCast]; exact hprev
    have hidx2 : index dp (q : Int) = some cur := by
      rw [index_natCast]; exact hcur
    obtain ⟨w1, w2, w3, w4, w5, w6⟩ :=
      noWrap_step ps m q j tried prev cur p hpos hfit hq hp0 hj hprevFinal hcurMid
    rw [tryPack_eq q dp p prev cur hle hidx1 hidx2 w1 w2 w3 w4 w5 w6] at hres
    have hcurTotal : cur.totalItems = (m : Int) + 1 ∨ cur.totalItems = q := by
      rcases hcurMid with ⟨hu, _⟩ | ⟨hr, _⟩
      · left; rw [hu]
      · right; exact hr.1
    by_cases hb : prev.totalItems + p < cur.totalItems ∨
        (prev.totalItems + p = cur.totalItems ∧ sumCounts prev.packs + 1 < sumCounts cur.packs)
    · rw [if_pos hb, Option.some.injEq] at hres
      rw [← hres]
      simp only [Int.toNat_ofNat]
      rcases hprevFinal with ⟨hu, _⟩ | ⟨hr, _⟩
      · exfalso
        have e : prev.totalItems = (m : Int) + 1 := by rw [hu]
        rcases hb with hb | ⟨hb, _⟩ <;> rcases hcurTotal with hc | hc <;> omega
      · have hprevTotal : prev.totalItems = j := hr.1
        refine ⟨?_, ?_⟩
        · intro i s hs h1 hiq
          rw [List.getElem?_set_ne (by omega)] at hs
          exact hlow i s hs h1 hiq
        · intro s hs
          rw [List.getElem?_set_self hqlt] at hs
          have hs' := (Option.some.inj hs).symm
          subst hs'
          refine Or.inr ⟨p, List.mem_cons_self _ _, ?_, ?_, ?_⟩
          · show 0 < mapGet (mapSet prev.packs p (mapGet prev.packs p + 1)) p
            rw [mapGet_mapSet_self]
            have := mapGet_nonneg ps prev.packs p hr.2.1
            omega
          · show Reach ps ((q : Int) - p)
              (sumCounts (mapSet prev.packs p (mapGet prev.packs p + 1)) - 1)
            rw [sumCounts_incr, ← hj]
            have e : sumCounts prev.packs + 1 - 1 = sumCounts prev.packs := by omega
            rw [e]
            exact hr.2.2.2
          · intro p' hp' hlt hn
            have hn' : Reach ps ((q : Int) - p')
                (sumCounts (mapSet prev.packs p (mapGet prev.packs p + 1)) - 1) := hn
            rw [sumCounts_incr] at hn'
            have e : sumCounts prev.packs + 1 - 1 = sumCounts prev.packs := by omega
            rw [e] at hn'
            have hmem : p' ∈ tried := by
              rcases List.mem_cons.mp hp' with e' | e'
              · omega
              · exact e'
            rcases hcurMid with ⟨_, hno⟩ | ⟨hcr, hbound⟩
            · exact hno p' hmem (by omega) _ hn'
            · have h1 := hbound p' hmem (by omega) _ hn'
              have h2 : cur.totalItems = q := hcr.1
              rcases hb with hb | ⟨_, hb⟩ <;> omega
    · rw [if_neg hb, Option.some.injEq] at hres
      rw [← hres]
      exact hkeep

theorem foldlM_tryPack_tie (ps : List Int) (m q : Nat) (hpos : ∀ x ∈ ps, 0 < x)
    (hq : q ≤ m) (hfit : (m : Int) + 1 ≤ maxTableLen) :
    ∀ (todo tried : List Int) (dp dp' : List solution), (∀ x ∈ todo, x ∈ ps) →
      todo.Sorted (· ≤ ·) → (∀ a ∈ tried, ∀ b ∈ todo, a ≤ b) →
      Filling ps m q tried dp → TieFilling ps m q tried dp →
      todo.foldlM (tryPack q) dp = some dp' →
      TieFilling ps m q (todo.reverse ++ tried) dp' := by
  intro todo
  induction todo with
  | nil =>
    intro tried dp dp' _ _ _ _ hT hres
    have e : dp = dp' := Option.some.inj hres
    rw [← e]
    simpa using hT
  | cons p rest ih =>
    intro tried dp dp' hsub hsorted hord hF hT hres
    have hp : p ∈ ps := hsub p (List.mem_cons_self _ _)
    obtain ⟨dp1, h1, hF1⟩ := tryPack_step ps m q tried dp p hpos hp hq hfit hF
    have hT1 := tryPack_tie ps m q tried dp dp1 p hpos hp hq hfit
      (fun a ha => hord a ha p (List.mem_cons_self _ _)) hF hT h1
    rw [List.foldlM_cons, h1] at hres
    have hs := List.sorted_cons.mp hsorted
    have hord1 : ∀ a ∈ p :: tried, ∀ b ∈ rest, a ≤ b := by
      intro a ha b hb
      rcases List.mem_cons.mp ha with e | e
      · rw [e]; exact hs.1 b hb
      · exact hord a e b (List.mem_cons_of_mem _ hb)
    have := ih (p :: tried) dp1 dp' (fun x hx => hsub x (List.mem_cons_of_mem _ hx))
      hs.2 hord1 hF1 hT1 hres
    have e : (p :: rest).reverse ++ tried = rest.reverse ++ p :: tried := by simp
    rw [e]
    exact this

/-- One iteration of the outer loop completes the tie-break facts of row `q`. -/
theorem fillQuantity_tie (ps : List Int) (m q : Nat) (dp dp' : List solution)
    (hpos : ∀ x ∈ ps, 0 < x) (hq : q ≤ m) (hfit : (m : Int) + 1 ≤ maxTableLen)
    (hF : Filled ps m q dp) (hT : TieFilled ps m q dp)
    (hres : fillQuantity (sortInts ps) dp q = some dp') :
    TieFilled ps m (q + 1) dp' := by
  have hT0 : TieFilling ps m q [] dp := by
    refine ⟨hT, ?_⟩
    intro s hs
    exact Or.inl ((hF.2 q s hs).2 (le_refl _))
  obtain ⟨hlow, hrow⟩ := foldlM_tryPack_tie ps m q hpos hq hfit (sortInts ps) [] dp dp'
    (fun x hx => (mem_sortInts ps x).mp hx) (sortInts_sorted ps)
    (fun a ha => absurd ha (List.not_mem_nil a)) (Filled_Filling ps m q dp hF) hT0 hres
  intro i s hs h1 hlt
  by_cases hi : i = q
  · subst hi
    rcases hrow s hs with hu | ⟨p, hp, g1, g2, g3⟩
    · exact Or.inl hu
    · have hmem : ∀ x, x ∈ (sortInts ps).reverse ++ [] ↔ x ∈ ps := by
        intro x
        simp only [List.append_nil, List.mem_reverse]
        exact mem_sortInts ps x
      exact Or.inr ⟨p, (hmem p).mp hp, g1, g2, fun p' hp' => g3 p' ((hmem p').mpr hp')⟩
  · exact hlow i s hs h1 (by omega)

/-- The table after the fill loop, with the tie-break facts of every entry. -/
theorem filled_table_tie (orderQuantity : Int) (packSizes : List Int) (lg : Int) (m : Nat)
    (hpos : ∀ p ∈ packSizes, 0 < p) (hm : (m : Int) = orderQuantity + lg)
    (hfit : (m : Int) + 1 ≤ maxTableLen) :
    ∃ dp0 dp1, (initTable (orderQuantity + lg)).bind setBase = some dp0 ∧
      fillTable (sortInts packSizes) (orderQuantity + lg) dp0 = some dp1 ∧
      Filled packSizes m (m + 1) dp1 ∧ TieFilled packSizes m (m + 1) dp1 := by
  have hinit := init_spec m hfit
  obtain ⟨dp1, hfill, q, hq, hF, hT⟩ := quantities_inv (fillQuantity (sortInts packSizes)) 1
    (m : Int)
    (fun k d => ∃ q : Nat, (q : Int) = k + 1 ∧ Filled packSizes m q d ∧ TieFilled packSizes m q d)
    (⟨0, []⟩ :: List.replicate m ⟨(m : Int) + 1, []⟩) (by omega)
    ⟨1, by omega, init_Filled packSizes m, fun i s _ h1 hlt => absurd hlt (by omega)⟩
    (by
      intro k d hk1 hkm hI
      obtain ⟨q, hq, hF, hT⟩ := hI
      have hk : k = (q : Int) := by omega
      obtain ⟨d', hd1, hd2⟩ := fillQuantity_step packSizes (sortInts packSizes) m q d hpos
        (mem_sortInts packSizes) (by omega) (by omega) hfit hF
      have hd3 := fillQuantity_tie packSizes m q d d' hpos (by omega) hfit hF hT hd1
      exact ⟨d', by rw [hk]; exact hd1, q + 1, by push_cast; omega, hd2, hd3⟩)
  have e : q = m + 1 := by omega
  rw [e] at hF hT
  have hfill' : fillTable (sortInts packSizes) (m : Int)
      (⟨0, []⟩ :: List.replicate m ⟨(m : Int) + 1, []⟩) = some dp1 := hfill
  rw [hm] at hinit hfill'
  exact ⟨_, dp1, hinit, hfill', hF, hT⟩

/-- On every valid input with a positive order, the returned map holds a pack of
a size `p` through which the returned pack count is attained, and no smaller
available size attains it. -/
theorem CalculatePacks_tie (orderQuantity : Int) (packSizes : List Int)
    (h1 : 1 ≤ orderQuantity) (hne : packSizes ≠ []) (hpos : ∀ p ∈ packSizes, 0 < p)
    (hfit : (∃ p ∈ packSizes, p ≤ orderQuantity) → TableFits orderQuantity packSizes) :
    ∃ r, CalculatePacks orderQuantity packSizes = some r ∧
      ∃ p ∈ packSizes, 0 < mapGet r.Packs p ∧
        Reach packSizes (r.TotalItems - p) (sumCounts r.Packs - 1) ∧
        ∀ p' ∈ packSizes, p' < p →
          ¬ Reach packSizes (r.TotalItems - p') (sumCounts r.Packs - 1) := by
  have hz : orderQuantity ≠ 0 := by omega
  obtain ⟨sm, rest, hsort, hsm, hmin⟩ := sortInts_head packSizes hne
  have hhead : (sortInts packSizes).head? = some sm := by rw [hsort]; rfl
  have hsm0 := hpos sm hsm
  by_cases hlt : orderQuantity < sm
  · refine ⟨_, CalculatePacks_small orderQuantity packSizes sm hz hhead hlt, sm, hsm, ?_, ?_, ?_⟩
    · simp [mapGet]
    · simpa [sumCounts] using Reach_zero packSizes
    · intro p' hp' hlt'
      have := hmin p' hp'
      omega
  · obtain ⟨lg, hlast, hlg⟩ := sortInts_last packSizes hne
    have hlg0 := hpos lg hlg
    obtain ⟨m, hm⟩ : ∃ m : Nat, (m : Int) = orderQuantity + lg :=
      ⟨(orderQuantity + lg).toNat, Int.toNat_of_nonneg (by omega)⟩
    have hfitm : (m : Int) + 1 ≤ maxTableLen := by
      have := hfit ⟨sm, hsm, by omega⟩ lg hlg
      omega
    have hM : wrapInt (orderQuantity + lg) = orderQuantity + lg :=
      wrapInt_small _ (by omega) (by omega)
    obtain ⟨dp0, dp1, hinit, hfill, hF, hT⟩ :=
      filled_table_tie orderQuantity packSizes lg m hpos hm hfitm
    obtain ⟨best, hbest, hS⟩ :=
      findBest_spec packSizes m dp1 orderQuantity hF (by omega) (by omega) hfitm
    rw [hm] at hbest
    refine ⟨_, CalculatePacks_general orderQuantity packSizes sm lg dp0 dp1 best hz hhead hlt
      hlast hM hinit hfill hbest, ?_⟩
    rcases hS with ⟨_, hno⟩ | ⟨t, ht1, ht2, _, ht4, ht5, _, _⟩
    · exfalso
      obtain ⟨t, n, g1, g2, g3⟩ :=
        exists_reach_window packSizes orderQuantity lg hlg hlg0 (by omega)
      exact hno t g1 (by omega) n g3
    · have e1 : best.2.totalItems = t := ht5.1
      rcases hT t best.2 ht4 (by omega) (by omega) with hu | ⟨p, hp, g1, g2, g3⟩
      · exfalso
        have : best.2.totalItems = (m : Int) + 1 := by rw [hu]
        omega
      · refine ⟨p, hp, g1, ?_, ?_⟩
        · show Reach packSizes (best.2.totalItems - p) (sumCounts best.2.packs - 1)
          rw [e1]; exact g2
        · intro p' hp' hlt'
          show ¬ Reach packSizes (best.2.totalItems - p') (sumCounts best.2.packs - 1)
          rw [e1]; exact g3 p' hp' hlt'

/-- Taking one pack out of a combination. -/
theorem Reach_erase (ps l : List Int) (p : Int) (hl : ∀ x ∈ l, x ∈ ps) (hp : p ∈ l) :
    Reach ps (l.sum - p) ((l.length : Int) - 1) := by
  have hperm := List.perm_cons_erase hp
  have hsum : l.sum = p + (l.erase p).sum := by
    rw [hperm.sum_eq, List.sum_cons]
  have hlen : l.length = (l.erase p).length + 1 := by
    rw [hperm.length_eq, List.length_cons]
  refine ⟨l.erase p, fun x hx => hl x (List.mem_of_mem_erase hx), by omega, by omega⟩

/-- C21 as stated fails: for the order 1 and the sizes 1 and `2^63 - 1` no `Packs`
mapping is returned, because `orderQuantity + packSizes[len-1]` wraps and `make`
panics. -/
theorem CalculatePacks_tie_break_fails :
    (1 : Int) ≤ 1 ∧ ([1, 9223372036854775807] : List Int) ≠ [] ∧
    (∀ p ∈ ([1, 9223372036854775807] : List Int), 0 < p) ∧
    ¬ ∃ r, CalculatePacks 1 [1, 9223372036854775807] = some r ∧
      ∃ p, 0 < mapGet r.Packs p := by
  refine ⟨by decide, by decide, by decide, ?_⟩
  rintro ⟨r, hr, _⟩
  rw [CalculatePacks_wraps_size] at hr
  exact absurd hr (by simp)

/-- C21, amended: the tie-break among pack sizes. For every order quantity `>= 1`
and every non-empty list of positive pack sizes, in any order, whose table can
be allocated (unless the order is below every size,
`orderQuantity + p + 1 <= 2^44` for every size `p`), `CalculatePacks` returns a
result whose `Packs` mapping holds at least one pack of a size `p` such that
some fewest-packs combination summing to the returned `TotalItems` uses `p`
and every size used by any such combination is at least `p`. -/
theorem CalculatePacks_tie_break (orderQuantity : Int) (packSizes : List Int)
    (h1 : 1 ≤ orderQuantity) (hne : packSizes ≠ []) (hpos : ∀ p ∈ packSizes, 0 < p)
    (hfit : (∃ p ∈ packSizes, p ≤ orderQuantity) → TableFits orderQuantity packSizes) :
    ∃ r, CalculatePacks orderQuantity packSizes = some r ∧
      ∃ p, 0 < mapGet r.Packs p ∧
        (∃ l, MinCombo packSizes r.TotalItems l ∧ p ∈ l) ∧
        ∀ p' l', MinCombo packSizes r.TotalItems l' → p' ∈ l' → p ≤ p' := by
  obtain ⟨r, hr, p, hp, g1, g2, g3⟩ :=
    CalculatePacks_tie orderQuantity packSizes h1 hne hpos hfit
  obtain ⟨r', hr', _, _, _, _, h5, _, h7⟩ :=
    CalculatePacks_spec orderQuantity packSizes (by omega) hne hpos hfit
  have e : r' = r := Option.some.inj (hr'.symm.trans hr)
  rw [e] at h5 h7
  refine ⟨r, hr, p, g1, ?_, ?_⟩
  · obtain ⟨l0, hl0, hs0, hn0⟩ := g2
    refine ⟨p :: l0, ⟨?_, ?_, ?_⟩, List.mem_cons_self _ _⟩
    · intro x hx
      rcases List.mem_cons.mp hx with e' | e'
      · rw [e']; exact hp
      · exact hl0 x e'
    · rw [List.sum_cons, hs0]; omega
    · intro l' hl' hs'
      have := h7 l'.length ⟨l', hl', hs', rfl⟩
      rw [List.length_cons]
      omega
  · intro p' l' hmin hp'
    by_contra hcon
    obtain ⟨hl', hs', hleast⟩ := hmin
    obtain ⟨l5, hl5, hs5, hn5⟩ := h5
    have hle1 := hleast l5 hl5 hs5
    have hle2 := h7 l'.length ⟨l', hl', hs', rfl⟩
    have hlen : (l'.length : Int) = sumCounts r.Packs := by omega
    have hreach := Reach_erase packSizes l' p' hl' hp'
    rw [hs', hlen] at hreach
    exact g3 p' (hl' p' hp') (by omega) hreach

/-- Witness for C21: sizes 2, 3, 4 and quantity 6 give the mapping with one pack
of 2 and one of 4 (not two packs of 3), and the general statement applies. -/
theorem CalculatePacks_tie_break_witness :
    (CalculatePacks 6 [2, 3, 4] = some ⟨6, [(4, 1), (2, 1)], 6⟩ ∧
      mapGet [(4, 1), (2, 1)] 2 = 1 ∧ mapGet [(4, 1), (2, 1)] 4 = 1 ∧
      mapGet [(4, 1), (2, 1)] 3 = 0) ∧
    ∃ r, CalculatePacks 6 [2, 3, 4] = some r ∧
      ∃ p, 0 < mapGet r.Packs p ∧
        (∃ l, MinCombo [2, 3, 4] r.TotalItems l ∧ p ∈ l) ∧
        ∀ p' l', MinCombo [2, 3, 4] r.TotalItems l' → p' ∈ l' → p ≤ p' :=
  ⟨by decide, CalculatePacks_tie_break 6 [2, 3, 4] (by decide) (by decide) (by decide)
    (fun _ => by decide)⟩

end PackSizer
